import Mathlib

/-
Verification of the yedit document engine (plugins/modules/yedit.py).

The Python module edits YAML/JSON trees addressed by dotted/bracketed path
strings and persists them with a temp-file + atomic-rename protocol.  This
file gives a shallow embedding of the pure core of the module:

* `Value` models the in-memory document tree (mappings with string keys,
  sequences, scalars).  Python `None` is modelled by `Value.vnull`; the code
  conflates "missing" and "stored null" exactly as Python does.
* Python exceptions are modelled by `Except PyErr`; an `Except.error` result
  corresponds to the Python function raising.
* `Yedit.parse_key` / `Yedit.valid_key` model the two regular expressions
  `re_key` and `re_valid_key` (including the facts that `re_valid_key` is
  "formatted" with `str.format` although it contains only `%s`, so its
  character class is literally `[0-9a-zA-Z%s/_-]`, and that its `.?` joiner
  matches any single non-newline character).
* `Yedit.get_entry`, `Yedit.add_entry`, `Yedit.remove_entry` model the three
  static tree helpers; `Yedit.put`, `Yedit.update`, `Yedit.append`,
  `Yedit.insert`, `Yedit.delete`, `Yedit.pop`, `Yedit.get` model the engine
  operations (`self.yaml_dict` is threaded explicitly: each operation takes
  the current tree and returns the pair `(changed, new tree)`).
  In-place mutation of a resolved sub-node is rendered functionally by
  `Yedit.replaceResolved`, which rebuilds the tree along the same navigation
  path the Python code used to obtain the alias it mutates.
* The crash-safe write protocol of `Yedit._write` is modelled as a sequence
  of file-system operations (`FsOp`) over an abstract file-system state.

Recursions over strings are implemented with an explicit fuel argument
(always called with fuel larger than the input length) so that every
definition is computable by the kernel.
-/

/-- Exceptions the modelled Python code can raise. -/
inductive PyErr where
  | yeditErr (msg : String)
  | indexError
  | keyError
  | typeError
  | osError
  deriving DecidableEq, Repr

/-- A Python/YAML document value: null, bool, int, string, sequence, or
string-keyed ordered mapping.  (Floats and non-string mapping keys do not
occur in any claim and are omitted.) -/
inductive Value where
  | vnull
  | vbool (b : Bool)
  | vint (n : Int)
  | vstr (s : String)
  | vlist (xs : List Value)
  | vdict (m : List (String × Value))

/-- One step of a parsed path: a bracketed sequence index `[N]` or a mapping
key, as produced by `re.findall(re_key, ...)`. -/
inductive Step where
  | idx (i : Int)
  | key (s : String)
  deriving DecidableEq, Repr

namespace Yedit

/-- Python truthiness (`if data:`) for modelled values. -/
def pyTruthy : Value → Bool
  | .vnull => false
  | .vbool b => b
  | .vint n => n != 0
  | .vstr s => s != ""
  | .vlist xs => !xs.isEmpty
  | .vdict m => !m.isEmpty

/-- Whether a value is a mapping or a sequence (`isinstance(data, (list, dict))`). -/
def containerB : Value → Bool
  | .vlist _ => true
  | .vdict _ => true
  | _ => false

/-- Whether a value is Python `None` (the code tests `entry is None`). -/
def isVNull : Value → Bool
  | .vnull => true
  | _ => false

/-- First value stored under key `k` in an association list (Python dict lookup). -/
def lookupVal (k : String) : List (String × Value) → Option Value
  | [] => none
  | (k', v) :: rest => if k' = k then some v else lookupVal k rest

/-- Python `data.get(k)`: the stored value, or `None` when the key is absent. -/
def lookupD (m : List (String × Value)) (k : String) : Value :=
  (lookupVal k m).getD .vnull

/-- Python `data[k] = v` on a dict: overwrite in place if the key exists
(keeping its position), otherwise append at the end (insertion order). -/
def dictSet : List (String × Value) → String → Value → List (String × Value)
  | [], k, v => [(k, v)]
  | (k', w) :: rest, k, v =>
    if k' = k then (k', v) :: rest else (k', w) :: dictSet rest k v

/-- Python `del data[k]` / `data.pop(k)` on a dict: drop the entry for `k`. -/
def dictDel : List (String × Value) → String → List (String × Value)
  | [], _ => []
  | (k', w) :: rest, k => if k' = k then rest else (k', w) :: dictDel rest k

/-- Python `data[i]` on a list: non-negative indices from the front, negative
indices from the back, `IndexError` outside `[-len, len-1]`. -/
def pyIndex (xs : List Value) (i : Int) : Except PyErr Value :=
  if 0 ≤ i ∧ i < (xs.length : Int) then .ok (xs.getD i.toNat .vnull)
  else if -(xs.length : Int) ≤ i ∧ i < 0 then .ok (xs.getD (i + xs.length).toNat .vnull)
  else .error .indexError

/-- The list position a Python index `i` denotes once it is known to be in
range (`i` normalised to a `Nat`). -/
def normIdx (i : Int) (len : Nat) : Nat :=
  if i < 0 then (i + len).toNat else i.toNat

/-! ### Path grammar: `re_key` and `re_valid_key` -/

/-- Characters accepted inside a key segment by `re_key` once the common
separators other than the active one are spliced into the character class:
`[0-9a-zA-Z<other separators>/_-]`. -/
def isKeyChar (sep : Char) (c : Char) : Bool :=
  c.isAlphanum || c = '/' || c = '_' || c = '-' ||
    (c ≠ sep && (c = '.' || c = '#' || c = '|' || c = ':'))

/-- Characters accepted inside a key segment by `re_valid_key`.  Because the
pattern contains `%s` rather than `{}`, `str.format` leaves it unchanged and
the class is literally `[0-9a-zA-Z%s/_-]`. -/
def isValidSegChar (c : Char) : Bool :=
  c.isAlphanum || c = '%' || c = '/' || c = '_' || c = '-'

/-- Split off a maximal run of digit characters. -/
def takeDigits : List Char → (List Char × List Char)
  | [] => ([], [])
  | c :: rest =>
    if c.isDigit then
      let (ds, r) := takeDigits rest
      (c :: ds, r)
    else ([], c :: rest)

/-- Numeric value of a digit run. -/
def digitsToNat (ds : List Char) : Nat :=
  ds.foldl (fun n c => 10 * n + (c.toNat - '0'.toNat)) 0

/-- Match the regex alternative `\[(-?\d+)\]` at the head of the input,
returning the captured integer and the remaining characters. -/
def bracketInt : List Char → Option (Int × List Char)
  | '[' :: rest =>
    let (neg, rest1) := match rest with
      | '-' :: r => (true, r)
      | _ => (false, rest)
    let (ds, rest2) := takeDigits rest1
    if ds.isEmpty then none
    else match rest2 with
      | ']' :: rest3 =>
        let n : Int := digitsToNat ds
        some (if neg then -n else n, rest3)
      | _ => none
  | _ => none

/-- Split off a maximal run of `re_key` key-segment characters. -/
def takeKeyRun (sep : Char) : List Char → (List Char × List Char)
  | [] => ([], [])
  | c :: rest =>
    if isKeyChar sep c then
      let (run, r) := takeKeyRun sep rest
      (c :: run, r)
    else ([], c :: rest)

/-- Scanner for `re.findall(re_key, key)`: at each position try the bracketed
integer alternative first, then a greedy key run; characters matching neither
are skipped.  Fuel is at least `length + 1`, and every branch consumes at
least one character. -/
def parseKeyAux (sep : Char) : Nat → List Char → List Step
  | 0, _ => []
  | _ + 1, [] => []
  | fuel + 1, c :: rest =>
    match bracketInt (c :: rest) with
    | some (i, rest') => .idx i :: parseKeyAux sep fuel rest'
    | none =>
      if isKeyChar sep c then
        let (run, rest') := takeKeyRun sep (c :: rest)
        .key (String.mk run) :: parseKeyAux sep fuel rest'
      else parseKeyAux sep fuel rest

/-- `Yedit.parse_key`: tokenize a path string into steps. -/
def parse_key (key : String) (sep : Char) : List Step :=
  parseKeyAux sep (key.length + 1) key.data

/-- End-of-pattern test for `re_valid_key`: `$` matches at the end of the
string or just before a single trailing newline. -/
def endOk : List Char → Bool
  | [] => true
  | [c] => c = '\n'
  | _ => false

/-- All suffixes obtained by consuming a non-empty prefix of the maximal
`re_valid_key` segment run (the backtracking choices of `[0-9a-zA-Z%s/_-]+`). -/
def segSuffixes : List Char → List (List Char)
  | [] => []
  | c :: rest => if isValidSegChar c then rest :: segSuffixes rest else []

/-- Backtracking acceptance of `(((\[-?\d+\])|([0-9a-zA-Z%s/_-]+)).?)+$` from
the current position: one segment (bracketed integer or key run), optionally
one arbitrary non-newline character (`.?`), then either the end anchor or at
least one further iteration. -/
def validFrom : Nat → List Char → Bool
  | 0, _ => false
  | fuel + 1, l =>
    let heads :=
      (match bracketInt l with
        | some (_, r) => [r]
        | none => []) ++ segSuffixes l
    heads.any fun s =>
      let conts := s :: (match s with
        | c :: s' => if c = '\n' then [] else [s']
        | [] => [])
      conts.any fun t => endOk t || validFrom fuel t

/-- `Yedit.valid_key`: `re.match(re_valid_key.format(...), key)` is truthy.
The separator argument is kept for fidelity but is unused, because
`str.format` does not substitute into `%s`. -/
def valid_key (key : String) (_sep : Char) : Bool :=
  validFrom (key.length + 1) key.data

/-! ### Tree navigation: `get_entry` -/

/-- The loop of `Yedit.get_entry` over the parsed steps: a dict step uses
`data.get` (missing keys become `None` and a later step then fails), a list
step is guarded by `int(arr_ind) <= len(data) - 1` and then indexes (which
can raise `IndexError` for a negative index below `-len`); any other
combination returns `None`. -/
def getEntrySteps : Value → List Step → Except PyErr Value
  | data, [] => .ok data
  | data, .key k :: rest =>
    match data with
    | .vdict m => getEntrySteps (lookupD m k) rest
    | _ => .ok .vnull
  | data, .idx i :: rest =>
    match data with
    | .vlist xs =>
      if i ≤ (xs.length : Int) - 1 then do
        let v ← pyIndex xs i
        getEntrySteps v rest
      else .ok .vnull
    | _ => .ok .vnull

/-- `Yedit.get_entry`: validate (a non-empty key failing `valid_key` on a
container returns `None`), parse, then walk. -/
def get_entry (data : Value) (key : String) (sep : Char) : Except PyErr Value :=
  if key ≠ "" ∧ valid_key key sep = false ∧ containerB data then .ok .vnull
  else getEntrySteps data (parse_key key sep)

/-! ### Python `==` (loose equality) -/

mutual

/-- Python `==` (loose equality): booleans compare equal to the integers 1
and 0, lists compare by length and element-wise equality, dicts compare by
length together with every entry of the left dict matching the entry stored
under the same key on the right.  For dicts without duplicate keys — the
only dicts Python can represent — the length check makes this one-sided
entry test coincide with Python's symmetric "same key set, equal values per
key" semantics. -/
def pyEq : Value → Value → Bool
  | .vnull, .vnull => true
  | .vbool x, .vbool y => x == y
  | .vbool x, .vint n => (if x then (1 : Int) else 0) == n
  | .vint n, .vbool x => n == (if x then (1 : Int) else 0)
  | .vint n, .vint m => n == m
  | .vstr s, .vstr t => s == t
  | .vlist xs, .vlist ys => xs.length == ys.length && pyEqList xs ys
  | .vdict xs, .vdict ys => xs.length == ys.length && pyEqEntries xs ys
  | _, _ => false

/-- Element-wise Python `==` on sequences (lengths already checked). -/
def pyEqList : List Value → List Value → Bool
  | [], _ => true
  | _ :: _, [] => false
  | x :: xs, y :: ys => pyEq x y && pyEqList xs ys

/-- Every entry on the left is present (by key) on the right with a
`pyEq`-equal value. -/
def pyEqEntries : List (String × Value) → List (String × Value) → Bool
  | [], _ => true
  | kv :: xs, ys =>
    (match lookupVal kv.1 ys with
      | some w => pyEq kv.2 w
      | none => false) && pyEqEntries xs ys

end

/-- Python `list.index(v)`: position of the first element equal (`==`) to
`v`, if any. -/
def pyIndexOf : List Value → Value → Option Nat
  | [], _ => none
  | x :: rest, v => if pyEq x v then some 0 else (pyIndexOf rest v).map (· + 1)

/-- Membership of a string in a list of keys. -/
def keyMem (k : String) : List String → Bool
  | [] => false
  | s :: rest => (s = k) || keyMem k rest

/-- No string occurs twice. -/
def nodupKeys : List String → Bool
  | [] => true
  | s :: rest => (!keyMem s rest) && nodupKeys rest

mutual

/-- Python-representable values: every mapping anywhere in the tree has
pairwise distinct keys (an actual Python dict cannot hold duplicates). -/
def wf : Value → Bool
  | .vlist xs => wfList xs
  | .vdict m => nodupKeys (m.map Prod.fst) && wfEntries m
  | _ => true

/-- All list elements are well formed. -/
def wfList : List Value → Bool
  | [] => true
  | x :: xs => wf x && wfList xs

/-- All stored dict values are well formed. -/
def wfEntries : List (String × Value) → Bool
  | [] => true
  | kv :: m => wf kv.2 && wfEntries m

end

/-! ### Tree mutation: `add_entry` -/

/-- The body of `Yedit.add_entry` after validation and parsing, in the
functional style: the Python loop walks `key_indexes[:-1]` mutating the tree
through aliases, then the terminal step adds/updates.  The result pair is
`(python return value, new tree)`; `Except.error` models a raised exception.
An empty step list models the Python `key_indexes[-1]` on an empty list,
which raises `IndexError`. -/
def addEntrySteps (item : Value) : Value → List Step → Except PyErr (Value × Value)
  | _, [] => .error .indexError
  | data, [.idx i] =>
    match data with
    | .vlist xs =>
      if i ≤ (xs.length : Int) then
        if i > (xs.length : Int) - 1 then
          let l := xs ++ [item]
          .ok (.vlist l, .vlist l)
        else if -(xs.length : Int) ≤ i then
          let l := xs.set (normIdx i xs.length) item
          .ok (.vlist l, .vlist l)
        else .error .indexError
      else .error (.yeditErr "Error adding to object at path")
    | _ => .error (.yeditErr "Error adding to object at path")
  | data, [.key k] =>
    match data with
    | .vdict m =>
      let m' := dictSet m k item
      .ok (.vdict m', .vdict m')
    | _ => .error (.yeditErr "Error adding to object at path")
  | data, .key k :: rest =>
    match data with
    | .vdict m =>
      match lookupVal k m with
      | some v =>
        if pyTruthy v then do
          let (ret, v') ← addEntrySteps item v rest
          .ok (ret, .vdict (dictSet m k v'))
        else do
          let (ret, v') ← addEntrySteps item (.vdict []) rest
          .ok (ret, .vdict (dictSet m k v'))
      | none => do
        let (ret, v') ← addEntrySteps item (.vdict []) rest
        .ok (ret, .vdict (dictSet m k v'))
    | _ =>
      if pyTruthy data then
        .error (.yeditErr "Unexpected item type found while going through key path")
      else .error .typeError
  | data, .idx i :: rest =>
    match data with
    | .vlist xs =>
      if i ≤ (xs.length : Int) - 1 then do
        let v ← pyIndex xs i
        let (ret, v') ← addEntrySteps item v rest
        .ok (ret, .vlist (xs.set (normIdx i xs.length) v'))
      else .error (.yeditErr "Unexpected item type found while going through key path")
    | _ => .error (.yeditErr "Unexpected item type found while going through key path")

/-- `Yedit.add_entry`: the root path returns `item` without touching the
tree; a non-empty key failing `valid_key` on a container returns `None`;
otherwise parse and run the walk/terminal logic. -/
def add_entry (data : Value) (key : String) (item : Value) (sep : Char) :
    Except PyErr (Value × Value) :=
  if key = "" then .ok (item, data)
  else if valid_key key sep = false ∧ containerB data then .ok (.vnull, data)
  else addEntrySteps item data (parse_key key sep)

/-! ### Tree mutation: `remove_entry` -/

/-- The non-root part of `Yedit.remove_entry`: walk `key_indexes[:-1]` with
the same guards as `get_entry`, then delete the terminal list index or dict
key.  The first component is the Python return value (`some true` success,
`some false` explicit `False`, `none` the implicit `None` fall-through). -/
def removeSteps : Value → List Step → Except PyErr (Option Bool × Value)
  | _, [] => .error .indexError
  | data, [.idx i] =>
    match data with
    | .vlist xs =>
      if i ≤ (xs.length : Int) - 1 then
        if -(xs.length : Int) ≤ i then
          .ok (some true, .vlist (xs.eraseIdx (normIdx i xs.length)))
        else .error .indexError
      else .ok (none, data)
    | _ => .ok (none, data)
  | data, [.key k] =>
    match data with
    | .vdict m =>
      if (lookupVal k m).isSome then .ok (some true, .vdict (dictDel m k))
      else .error .keyError
    | _ => .ok (none, data)
  | data, .key k :: rest =>
    match data with
    | .vdict m =>
      match lookupVal k m with
      | some sub => do
        let (r, sub') ← removeSteps sub rest
        .ok (r, .vdict (dictSet m k sub'))
      | none => do
        let (r, _) ← removeSteps .vnull rest
        .ok (r, .vdict m)
    | _ => .ok (none, data)
  | data, .idx i :: rest =>
    match data with
    | .vlist xs =>
      if i ≤ (xs.length : Int) - 1 then do
        let v ← pyIndex xs i
        let (r, v') ← removeSteps v rest
        .ok (r, .vlist (xs.set (normIdx i xs.length) v'))
      else .ok (none, data)
    | _ => .ok (none, data)

/-- `Yedit.remove_entry`.  The `index` and `value` arguments are only used
by the two root-path branches; for a non-root key the walk/terminal logic
ignores them.  A root path on a scalar falls through to `key_indexes[-1]`
on an empty list, raising `IndexError`. -/
def remove_entry (data : Value) (key : String) (index : Option Int)
    (value : Option Value) (sep : Char) : Except PyErr (Option Bool × Value) :=
  if key = "" then
    match data with
    | .vdict m =>
      match value with
      | some v =>
        match v with
        | .vstr s =>
          if (lookupVal s m).isSome then .ok (some true, .vdict (dictDel m s))
          else .error .keyError
        | _ => .error .keyError
      | none =>
        match index with
        | some _ => .error (.yeditErr "remove_entry for a dictionary does not have an index")
        | none => .ok (some true, .vdict [])
    | .vlist xs =>
      match value with
      | some v =>
        match pyIndexOf xs v with
        | none => .ok (some false, .vlist xs)
        | some n => .ok (some true, .vlist (xs.eraseIdx n))
      | none =>
        match index with
        | some i =>
          if 0 ≤ i ∧ i < (xs.length : Int) then
            .ok (some true, .vlist (xs.eraseIdx i.toNat))
          else if -(xs.length : Int) ≤ i ∧ i < 0 then
            .ok (some true, .vlist (xs.eraseIdx (i + xs.length).toNat))
          else .error .indexError
        | none => .ok (some true, .vlist [])
    | _ => removeSteps data (parse_key key sep)
  else if valid_key key sep = false ∧ containerB data then .ok (none, data)
  else removeSteps data (parse_key key sep)

/-! ### Engine operations

The Python methods read `self.yaml_dict`, resolve a node with `get_entry`,
and mutate that node in place through the alias.  Here the tree is threaded
explicitly; `replaceResolved` rebuilds the tree with the resolved node
replaced, following exactly the navigation `get_entry` performed (the
branches where `get_entry` would have returned `None` are never reached by
the callers, which check the resolved entry first). -/

/-- Functional rendering of "mutate the node `get_entry` resolved":
replace the value at the end of the navigation path. -/
def replaceResolved : Value → List Step → Value → Value
  | _, [], newv => newv
  | .vdict m, .key k :: rest, newv =>
    match lookupVal k m with
    | some sub => .vdict (dictSet m k (replaceResolved sub rest newv))
    | none => .vdict m
  | .vlist xs, .idx i :: rest, newv =>
    if i ≤ (xs.length : Int) - 1 ∧ -(xs.length : Int) ≤ i then
      .vlist (xs.set (normIdx i xs.length)
        (replaceResolved (xs.getD (normIdx i xs.length) .vnull) rest newv))
    else .vlist xs
  | data, _, _ => data

/-- `Yedit.get`: `get_entry` with `KeyError` caught and turned into `None`. -/
def get (d : Value) (key : String) (sep : Char) : Except PyErr Value :=
  match get_entry d key sep with
  | .error .keyError => .ok .vnull
  | r => r

/-- `Yedit.put`: no-op when the resolved entry already compares `==` to the
value; otherwise run `add_entry` on a deep copy (pure values make the copy
implicit); a `None` result reports no change; the root path commits the
result only when it is a list or dict; otherwise commit the mutated copy. -/
def put (d : Value) (path : String) (value : Value) (sep : Char) :
    Except PyErr (Bool × Value) := do
  let entry ← get d path sep
  if pyEq entry value then .ok (false, d)
  else do
    let (result, tmp) ← add_entry d path value sep
    if isVNull result then .ok (false, d)
    else if path = "" then
      if containerB result then .ok (true, result) else .ok (false, d)
    else .ok (true, tmp)

/-- `Yedit.delete`: unresolved paths are a no-op; otherwise delegate to
`remove_entry` and report whether it returned a truthy result. -/
def delete (d : Value) (path : String) (index : Option Int)
    (value : Option Value) (sep : Char) : Except PyErr (Bool × Value) := do
  let entry ← get d path sep
  if isVNull entry then .ok (false, d)
  else do
    let (res, d') ← remove_entry d path index value sep
    match res with
    | some true => .ok (true, d')
    | _ => .ok (false, d')

/-- `Yedit.pop`: on a dict entry remove the key if present; on a list entry
remove the first element equal (`==`) to the item; otherwise no-op.
Membership of a non-string item in a string-keyed dict is always false. -/
def pop (d : Value) (path : String) (keyOrItem : Value) (sep : Char) :
    Except PyErr (Bool × Value) := do
  let entry ← get d path sep
  if isVNull entry then .ok (false, d)
  else
    match entry with
    | .vdict m =>
      match keyOrItem with
      | .vstr s =>
        if (lookupVal s m).isSome then
          .ok (true, replaceResolved d (parse_key path sep) (.vdict (dictDel m s)))
        else .ok (false, d)
      | _ => .ok (false, d)
    | .vlist xs =>
      match pyIndexOf xs keyOrItem with
      | some n => .ok (true, replaceResolved d (parse_key path sep) (.vlist (xs.eraseIdx n)))
      | none => .ok (false, d)
    | _ => .ok (false, d)

/-- `Yedit.update`: a dict entry is merged (shallow key overwrite, always
changed) and requires a dict value; a list entry resolves a target index
from a truthy `curr_value` (first `==` match, explicit `False`/no-op when
absent) or the explicit `index`, replaces when the element differs, and
otherwise searches for `value` itself, appending when absent. -/
def update (d : Value) (path : String) (value : Value) (index : Option Int)
    (currValue : Value) (sep : Char) : Except PyErr (Bool × Value) := do
  let entry ← get d path sep
  match entry with
  | .vdict m =>
    match value with
    | .vdict vm =>
      .ok (true, replaceResolved d (parse_key path sep)
        (.vdict (vm.foldl (fun acc kv => dictSet acc kv.1 kv.2) m)))
    | _ => .error (.yeditErr "Cannot replace key, value entry in dict with non-dict type")
  | .vlist xs =>
    match (if pyTruthy currValue then
            match pyIndexOf xs currValue with
            | some n => some (some (n : Int))
            | none => none
          else some index : Option (Option Int)) with
    | none => .ok (false, d)
    | some none =>
      match pyIndexOf xs value with
      | none => .ok (true, replaceResolved d (parse_key path sep) (.vlist (xs ++ [value])))
      | some _ => .ok (false, d)
    | some (some i) => do
      let cur ← pyIndex xs i
      if pyEq cur value = false then
        .ok (true, replaceResolved d (parse_key path sep)
          (.vlist (xs.set (normIdx i xs.length) value)))
      else
        match pyIndexOf xs value with
        | none => .ok (true, replaceResolved d (parse_key path sep) (.vlist (xs ++ [value])))
        | some _ => .ok (false, d)
  | _ => .ok (false, d)

/-- `Yedit.append`: when the path resolves to `None`, first `put` an empty
list there and re-resolve (without catching); then append when the entry is
a list, and report no change otherwise. -/
def append (d : Value) (path : String) (value : Value) (sep : Char) :
    Except PyErr (Bool × Value) := do
  let entry ← get d path sep
  let (d1, entry1) ←
    if isVNull entry then do
      let (_, d') ← put d path (.vlist []) sep
      let e ← get_entry d' path sep
      pure (d', e)
    else pure (d, entry)
  match entry1 with
  | .vlist xs => .ok (true, replaceResolved d1 (parse_key path sep) (.vlist (xs ++ [value])))
  | _ => .ok (false, d1)

/-- Python `list.insert(i, v)`: clamps the position into range. -/
def insertAt : Nat → Value → List Value → List Value
  | 0, v, xs => v :: xs
  | _ + 1, v, [] => [v]
  | n + 1, v, x :: xs => x :: insertAt n v xs

/-- `Yedit.insert`: like `append` but inserts at `index` (default 0). -/
def insert (d : Value) (path : String) (value : Value) (index : Int) (sep : Char) :
    Except PyErr (Bool × Value) := do
  let entry ← get d path sep
  let (d1, entry1) ←
    if isVNull entry then do
      let (_, d') ← put d path (.vlist []) sep
      let e ← get_entry d' path sep
      pure (d', e)
    else pure (d, entry)
  match entry1 with
  | .vlist xs =>
    let n : Nat := if index < 0 then (index + xs.length).toNat else index.toNat
    .ok (true, replaceResolved d1 (parse_key path sep) (.vlist (insertAt n value xs)))
  | _ => .ok (false, d1)

/-! ### The crash-safe write protocol of `Yedit._write` -/

/-- Abstract state of the two paths `_write` touches: the target file and
the sibling temporary file `filename + ".yedit"`. -/
structure FsState where
  target : Option String
  tmp : Option String
  deriving DecidableEq, Repr

/-- One step of the `_write` protocol. -/
inductive FsOp where
  /-- `os.stat(filename)` — fails when the target does not exist. -/
  | statTarget
  /-- `os.open(tmp, O_WRONLY|O_CREAT|O_TRUNC)` — create/truncate the temp file. -/
  | openTruncTmp
  /-- `fcntl.flock(LOCK_EX | LOCK_NB)` — no state change (single process). -/
  | flockTmp
  /-- `write_func(yfd)` — serialize the tree into the temp file. -/
  | writeTmp (s : String)
  /-- `flush` / `os.fsync(fd)` — no state change in this model. -/
  | fsyncTmp
  /-- `fcntl.flock(LOCK_UN)`. -/
  | unlockTmp
  /-- `os.rename(tmp, filename)` — atomic replacement. -/
  | renameTmp
  /-- best-effort `os.fsync` of the directory. -/
  | fsyncDir

/-- Effect of one protocol step. -/
def fsApply (fs : FsState) : FsOp → Except PyErr FsState
  | .statTarget => if fs.target.isSome then .ok fs else .error .osError
  | .openTruncTmp => .ok { fs with tmp := some "" }
  | .flockTmp => .ok fs
  | .writeTmp s =>
    match fs.tmp with
    | some t => .ok { fs with tmp := some (t ++ s) }
    | none => .error .osError
  | .fsyncTmp => .ok fs
  | .unlockTmp => .ok fs
  | .renameTmp =>
    match fs.tmp with
    | some t => .ok { target := some t, tmp := none }
    | none => .error .osError
  | .fsyncDir => .ok fs

/-- Run a prefix of the protocol. -/
def fsRun (fs : FsState) : List FsOp → Except PyErr FsState
  | [] => .ok fs
  | op :: ops => do
    let fs' ← fsApply fs op
    fsRun fs' ops

/-- The ordered steps `Yedit._write` performs to persist serialized
`content`; the rename is step index 6 (0-based). -/
def writeOps (content : String) : List FsOp :=
  [.statTarget, .openTruncTmp, .flockTmp, .writeTmp content, .fsyncTmp,
   .unlockTmp, .renameTmp, .fsyncDir]

/-! ## Helper lemmas -/

theorem lookupVal_dictSet_self (m : List (String × Value)) (k : String) (v : Value) :
    lookupVal k (dictSet m k v) = some v := by
  induction m with
  | nil => simp [dictSet, lookupVal]
  | cons kv rest ih =>
    obtain ⟨k', w⟩ := kv
    by_cases hk : k' = k
    · simp [dictSet, hk, lookupVal]
    · simp [dictSet, hk, lookupVal, ih]

theorem getD_append_len (xs : List Value) (v w : Value) :
    (xs ++ [v]).getD xs.length w = v := by
  induction xs with
  | nil => rfl
  | cons x rest ih => simp [ih]

theorem getD_set_self (xs : List Value) (n : Nat) (v w : Value) (h : n < xs.length) :
    (xs.set n v).getD n w = v := by
  induction xs generalizing n with
  | nil => simp at h
  | cons x rest ih =>
    cases n with
    | zero => rfl
    | succ m => simpa using ih m (by simpa using h)

theorem pyIndexOf_some (xs : List Value) (v : Value) (n : Nat)
    (h : pyIndexOf xs v = some n) :
    n < xs.length ∧ pyEq (xs.getD n .vnull) v = true := by
  induction xs generalizing n with
  | nil => simp [pyIndexOf] at h
  | cons x rest ih =>
    by_cases hx : pyEq x v = true
    · simp [pyIndexOf, hx] at h
      subst h
      exact ⟨by simp, hx⟩
    · simp [pyIndexOf, hx] at h
      obtain ⟨m, hm, rfl⟩ := h
      obtain ⟨h1, h2⟩ := ih m hm
      exact ⟨by simpa using h1, by simpa using h2⟩

/-! ## Claim C1: durable-write crash safety -/

/-- C1: for the modelled `_write` protocol, every prefix stopping before the
atomic rename (step index 6) leaves the target file present with its
original content; every reachable intermediate state shows either the old or
the new complete content at the target; and the full protocol ends with the
new content installed and the temporary file gone. -/
theorem c1_durable_write (fs0 : FsState) (orig content : String)
    (h : fs0.target = some orig) :
    (∀ k, k ≤ 6 → ∃ fs', fsRun fs0 ((writeOps content).take k) = .ok fs' ∧
        fs'.target = some orig) ∧
    (∀ k fs', fsRun fs0 ((writeOps content).take k) = .ok fs' →
        fs'.target = some orig ∨ fs'.target = some content) ∧
    (∃ fs', fsRun fs0 (writeOps content) = .ok fs' ∧ fs'.target = some content ∧
        fs'.tmp = none) := by
  obtain ⟨tgt, tmp0⟩ := fs0
  simp only [FsState.mk.injEq] at h
  subst h
  have hpre : ∀ k, k ≤ 6 → ∃ fs', fsRun ⟨some orig, tmp0⟩ ((writeOps content).take k) = .ok fs' ∧
      fs'.target = some orig := by
    intro k hk
    interval_cases k
    · exact ⟨⟨some orig, tmp0⟩, rfl, rfl⟩
    · exact ⟨⟨some orig, tmp0⟩, rfl, rfl⟩
    · exact ⟨⟨some orig, some ""⟩, rfl, rfl⟩
    · exact ⟨⟨some orig, some ""⟩, rfl, rfl⟩
    · exact ⟨⟨some orig, some content⟩, rfl, rfl⟩
    · exact ⟨⟨some orig, some content⟩, rfl, rfl⟩
    · exact ⟨⟨some orig, some content⟩, rfl, rfl⟩
  have hfull : fsRun ⟨some orig, tmp0⟩ (writeOps content) = .ok ⟨some content, none⟩ := rfl
  refine ⟨hpre, ?_, ⟨_, hfull, rfl, rfl⟩⟩
  intro k fs' hfs
  rcases le_or_lt k 6 with hk | hk
  · obtain ⟨fs'', heq, ht⟩ := hpre k hk
    rw [heq] at hfs
    cases hfs
    exact Or.inl ht
  · have h8 : (writeOps content).take k = (writeOps content).take 7 ∨
        (writeOps content).take k = writeOps content := by
      rcases Nat.lt_or_ge k 8 with h7 | h7
      · have : k = 7 := by omega
        subst this
        exact Or.inl rfl
      · refine Or.inr (List.take_of_length_le ?_)
        simp only [writeOps, List.length_cons, List.length_nil]
        omega
    rcases h8 with h8 | h8 <;> rw [h8] at hfs
    · have h7run : fsRun (⟨some orig, tmp0⟩ : FsState) ((writeOps content).take 7) =
          .ok ⟨some content, none⟩ := rfl
      rw [h7run] at hfs
      cases hfs
      exact Or.inr rfl
    · rw [hfull] at hfs
      cases hfs
      exact Or.inr rfl

/-- C1 witness: a concrete run from a file holding `"old"`. -/
theorem c1_witness :
    ∃ fs', fsRun ⟨some "old", none⟩ (writeOps "new") = .ok fs' ∧
      fs'.target = some "new" ∧ fs'.tmp = none :=
  (c1_durable_write ⟨some "old", none⟩ "old" "new" rfl).2.2

/-! ## Claim C2: not-found conditions and exceptions -/

/-- C2 (failing input): a negative sequence index below `-len` is an
ordinary out-of-bounds condition, yet `get` raises `IndexError` (the bounds
check `int(arr_ind) <= len(data) - 1` has no lower bound), `delete`
propagates the same error from its initial lookup, and `update` with an
explicit out-of-bounds index raises from `entry[ind]`. -/
theorem c2_not_found_raises :
    get (Value.vdict [("a", Value.vlist [])]) "a[-1]" '.' = .error .indexError ∧
    delete (Value.vdict [("a", Value.vlist [])]) "a[-1]" none none '.' =
      .error .indexError ∧
    update (Value.vdict [("a", Value.vlist [Value.vint 1, Value.vint 2])]) "a"
      (Value.vint 9) (some 5) Value.vnull '.' = .error .indexError :=
  ⟨rfl, rfl, rfl⟩

/-! ## Claim C10: put's unchanged-value check uses Python's loose equality -/

/-- C10: whenever the value resolved at a path is the integer 1, `put` with
the boolean `True` is a changed=false no-op — the check `entry == value`
identifies `True` with `1` — and the tree (hence the stored integer) is
returned unchanged. -/
theorem c10_put_loose_equality (d : Value) (key : String) (sep : Char)
    (h : get d key sep = .ok (.vint 1)) :
    put d key (.vbool true) sep = .ok (false, d) ∧
      pyEq (.vint 1) (.vbool true) = true := by
  constructor
  · unfold put
    rw [h]
    rfl
  · rfl

/-- C10 witness: the tree `{a: 1}` with `put("a", True)`. -/
theorem c10_witness :
    put (Value.vdict [("a", Value.vint 1)]) "a" (Value.vbool true) '.' =
      .ok (false, Value.vdict [("a", Value.vint 1)]) ∧
    pyEq (Value.vint 1) (Value.vbool true) = true :=
  c10_put_loose_equality _ "a" '.' rfl

/-! ## Claim C3: syntactically invalid paths -/

theorem get_entry_invalid (d : Value) (key : String) (sep : Char)
    (hc : containerB d = true) (hv : valid_key key sep = false) (hk : key ≠ "") :
    get_entry d key sep = .ok .vnull := by
  unfold get_entry
  rw [if_pos ⟨hk, hv, hc⟩]

theorem get_invalid (d : Value) (key : String) (sep : Char)
    (hc : containerB d = true) (hv : valid_key key sep = false) (hk : key ≠ "") :
    get d key sep = .ok .vnull := by
  unfold get
  rw [get_entry_invalid d key sep hc hv hk]

theorem ok_bind {α β : Type} (a : α) (f : α → Except PyErr β) :
    (Except.ok a : Except PyErr α) >>= f = f a := rfl

theorem put_invalid (d : Value) (key : String) (v : Value) (sep : Char)
    (hc : containerB d = true) (hv : valid_key key sep = false) (hk : key ≠ "") :
    put d key v sep = .ok (false, d) := by
  have hadd : add_entry d key v sep = .ok (.vnull, d) := by
    unfold add_entry
    rw [if_neg hk, if_pos ⟨hv, hc⟩]
  unfold put
  rw [get_invalid d key sep hc hv hk, ok_bind]
  by_cases hpe : pyEq .vnull v = true
  · rw [if_pos hpe]
  · rw [if_neg hpe, hadd, ok_bind]
    rfl

/-- C3 (corrected) counterexample: `"a..b"` fails the grammar (`valid_key`
is false), yet nothing raises — lookup returns `None` and `put` reports
`changed=false` on the unchanged tree, both as `Except.ok` results, whereas
the claim asserts an `InvalidPathError` exception is raised. -/
theorem c3_counterexample :
    valid_key "a..b" '.' = false ∧
    get_entry (Value.vdict [("a", Value.vdict [("b", Value.vint 1)])]) "a..b" '.' =
      .ok .vnull ∧
    put (Value.vdict [("a", Value.vdict [("b", Value.vint 1)])]) "a..b" (Value.vint 2) '.' =
      .ok (false, Value.vdict [("a", Value.vdict [("b", Value.vint 1)])]) :=
  ⟨rfl, rfl, rfl⟩

/-- C3 (amended): a non-empty path string rejected by the grammar
(`valid_key` false) never raises: on a container tree, lookup returns `None`
and every engine operation reports `changed=false` with the tree unmutated.
The grammar layer rejects by returning not-found, not by an exception. -/
theorem c3_invalid_path_rejected (d : Value) (key : String) (sep : Char)
    (hc : containerB d = true) (hv : valid_key key sep = false) (hk : key ≠ "") :
    get d key sep = .ok .vnull ∧
    get_entry d key sep = .ok .vnull ∧
    (∀ v, put d key v sep = .ok (false, d)) ∧
    (∀ index value, delete d key index value sep = .ok (false, d)) ∧
    (∀ v index curr, update d key v index curr sep = .ok (false, d)) ∧
    (∀ item, pop d key item sep = .ok (false, d)) ∧
    (∀ v, append d key v sep = .ok (false, d)) ∧
    (∀ v i, insert d key v i sep = .ok (false, d)) := by
  have hg := get_invalid d key sep hc hv hk
  have hge := get_entry_invalid d key sep hc hv hk
  refine ⟨hg, hge, fun v => put_invalid d key v sep hc hv hk, ?_, ?_, ?_, ?_, ?_⟩
  · intro index value
    unfold delete
    rw [hg]
    rfl
  · intro v index curr
    unfold update
    rw [hg]
    rfl
  · intro item
    unfold pop
    rw [hg]
    rfl
  · intro v
    simp only [append, hg, ok_bind, isVNull,
      put_invalid d key (.vlist []) sep hc hv hk, hge, if_true, pure_bind]
  · intro v i
    simp only [insert, hg, ok_bind, isVNull,
      put_invalid d key (.vlist []) sep hc hv hk, hge, if_true, pure_bind]

/-- C3 witness: the invalid path `"a..b"` on the empty mapping. -/
theorem c3_witness :
    get (Value.vdict []) "a..b" '.' = .ok .vnull ∧
    put (Value.vdict []) "a..b" (Value.vint 1) '.' = .ok (false, Value.vdict []) :=
  ⟨(c3_invalid_path_rejected (Value.vdict []) "a..b" '.' rfl rfl (by decide)).1,
   (c3_invalid_path_rejected (Value.vdict []) "a..b" '.' rfl rfl (by decide)).2.2.1
     (Value.vint 1)⟩

/-! ## Claim C5: delete and out-of-bounds list indices -/

/-- C5 (corrected) counterexample: on `{a: [1, 2]}`, `delete` with path `a`
and index 5 reports changed=true and removes the key `a` entirely — the
`index` argument is ignored for non-root paths — contradicting the claimed
changed=false no-op on the unchanged tree. -/
theorem c5_counterexample :
    delete (Value.vdict [("a", Value.vlist [Value.vint 1, Value.vint 2])]) "a"
      (some 5) none '.' = .ok (true, Value.vdict []) ∧
    (Except.ok (true, Value.vdict []) ≠
      (Except.ok (false, Value.vdict [("a", Value.vlist [Value.vint 1, Value.vint 2])]) :
        Except PyErr (Bool × Value))) := by
  refine ⟨rfl, ?_⟩
  intro hcontra
  simp at hcontra

/-- C5 (amended): the `index` argument of `delete` is honoured only at the
root path, so the claim's scenario removes the whole key `a` with
changed=true; an out-of-bounds list index written as a path step, by
contrast, is bounds-checked — whenever the terminal index step is at least
the current list length, `delete` reports changed=false and leaves the tree
unchanged. -/
theorem c5_delete_bounds (m : List (String × Value)) (k key : String)
    (xs : List Value) (i : Int) (index : Option Int) (value : Option Value) (sep : Char)
    (hp : parse_key key sep = [.key k, .idx i])
    (hl : lookupVal k m = some (.vlist xs))
    (hi : (xs.length : Int) ≤ i) :
    delete (.vdict m) key index value sep = .ok (false, .vdict m) ∧
    delete (Value.vdict [("a", Value.vlist [Value.vint 1, Value.vint 2])]) "a"
      (some 5) none '.' = .ok (true, Value.vdict []) := by
  refine ⟨?_, rfl⟩
  have hkey : key ≠ "" := by
    intro hcontra
    rw [hcontra, show parse_key "" sep = [] from rfl] at hp
    simp at hp
  have hld : lookupD m k = Value.vlist xs := by
    unfold lookupD
    rw [hl]
    rfl
  have hget : get (.vdict m) key sep = .ok .vnull := by
    unfold get get_entry
    by_cases hv : valid_key key sep = false
    · rw [if_pos ⟨hkey, hv, rfl⟩]
    · rw [if_neg (fun hcon => hv hcon.2.1), hp]
      simp only [getEntrySteps, hld]
      rw [if_neg (by omega)]
  unfold delete
  rw [hget, ok_bind]
  rfl

/-- C5 witness: the path step form `a[5]` on `{a: [1, 2]}` removes nothing. -/
theorem c5_witness :
    delete (Value.vdict [("a", Value.vlist [Value.vint 1, Value.vint 2])]) "a[5]"
      none none '.' =
      .ok (false, Value.vdict [("a", Value.vlist [Value.vint 1, Value.vint 2])]) :=
  (c5_delete_bounds [("a", Value.vlist [Value.vint 1, Value.vint 2])] "a" "a[5]"
    [Value.vint 1, Value.vint 2] 5 none none '.' rfl rfl (by decide)).1

/-! ## Claim C6: update on sequences -/

/-- C6 (corrected) counterexample: with tree `{a: [1]}` and a truthy
`currValue` 7 absent from the list, `update("a", 9, currValue := 7)` returns
changed=false immediately and does not append 9, whereas the claim says the
operation falls through to searching for the value and appends it. -/
theorem c6_counterexample :
    update (Value.vdict [("a", Value.vlist [Value.vint 1])]) "a" (Value.vint 9)
      none (Value.vint 7) '.' =
      .ok (false, Value.vdict [("a", Value.vlist [Value.vint 1])]) ∧
    (Except.ok (false, Value.vdict [("a", Value.vlist [Value.vint 1])]) ≠
      (Except.ok (true, Value.vdict [("a", Value.vlist [Value.vint 1, Value.vint 9])]) :
        Except PyErr (Bool × Value))) := by
  refine ⟨rfl, ?_⟩
  intro hcontra
  simp at hcontra

/-- C6 (amended): on a path resolving to a sequence, `update` behaves as:
a truthy `currValue` found in the list replaces the first `==`-equal element
when it differs (changed=true); a truthy `currValue` absent from the list is
an immediate changed=false no-op (no fall-through to value search); only
with a falsy `currValue` (such as `None`, `0`, `False`, `""`) and no
explicit index does `update` search for the value itself — a no-op when
present, an append when absent. -/
theorem c6_update_semantics (d : Value) (path : String) (sep : Char)
    (xs : List Value) (h : get d path sep = .ok (.vlist xs)) :
    (∀ curr value n index, pyTruthy curr = true → pyIndexOf xs curr = some n →
        pyEq (xs.getD n .vnull) value = false →
        update d path value index curr sep =
          .ok (true, replaceResolved d (parse_key path sep) (.vlist (xs.set n value)))) ∧
    (∀ curr value index, pyTruthy curr = true → pyIndexOf xs curr = none →
        update d path value index curr sep = .ok (false, d)) ∧
    (∀ curr value n, pyTruthy curr = false → pyIndexOf xs value = some n →
        update d path value none curr sep = .ok (false, d)) ∧
    (∀ curr value, pyTruthy curr = false → pyIndexOf xs value = none →
        update d path value none curr sep =
          .ok (true, replaceResolved d (parse_key path sep) (.vlist (xs ++ [value])))) := by
  refine ⟨?_, ?_, ?_, ?_⟩
  · intro curr value n index htr hfind hne
    obtain ⟨hlt, _⟩ := pyIndexOf_some xs curr n hfind
    have hpy : pyIndex xs (n : Int) = .ok (xs.getD n .vnull) := by
      unfold pyIndex
      rw [if_pos ⟨Int.natCast_nonneg n, by exact_mod_cast hlt⟩]
      simp
    have hnorm : normIdx (n : Int) xs.length = n := by simp [normIdx]
    unfold update
    rw [h, ok_bind]
    simp only [htr, if_true, hfind]
    rw [hpy, ok_bind, if_pos hne, hnorm]
  · intro curr value index htr hfind
    unfold update
    rw [h, ok_bind]
    simp only [htr, if_true, hfind]
  · intro curr value n htr hfind
    unfold update
    rw [h, ok_bind]
    simp only [htr, if_false, hfind]
    rfl
  · intro curr value htr hfind
    unfold update
    rw [h, ok_bind]
    simp only [htr, if_false, hfind]
    rfl

/-- C6 witness: the four behaviours at concrete inputs on `{a: [7]}` and
`{a: [7, 9]}`. -/
theorem c6_witness :
    update (Value.vdict [("a", Value.vlist [Value.vint 7])]) "a" (Value.vint 9)
      none (Value.vint 7) '.' =
      .ok (true, Value.vdict [("a", Value.vlist [Value.vint 9])]) ∧
    update (Value.vdict [("a", Value.vlist [Value.vint 7])]) "a" (Value.vint 9)
      none (Value.vint 8) '.' =
      .ok (false, Value.vdict [("a", Value.vlist [Value.vint 7])]) ∧
    update (Value.vdict [("a", Value.vlist [Value.vint 7, Value.vint 9])]) "a"
      (Value.vint 9) none Value.vnull '.' =
      .ok (false, Value.vdict [("a", Value.vlist [Value.vint 7, Value.vint 9])]) ∧
    update (Value.vdict [("a", Value.vlist [Value.vint 7])]) "a" (Value.vint 9)
      none Value.vnull '.' =
      .ok (true, Value.vdict [("a", Value.vlist [Value.vint 7, Value.vint 9])]) := by
  refine ⟨?_, ?_, ?_, ?_⟩
  · exact ((c6_update_semantics (Value.vdict [("a", Value.vlist [Value.vint 7])]) "a" '.'
      [Value.vint 7] rfl).1 (Value.vint 7) (Value.vint 9) 0 none rfl rfl rfl).trans rfl
  · exact (c6_update_semantics (Value.vdict [("a", Value.vlist [Value.vint 7])]) "a" '.'
      [Value.vint 7] rfl).2.1 (Value.vint 8) (Value.vint 9) none rfl rfl
  · exact (c6_update_semantics (Value.vdict [("a", Value.vlist [Value.vint 7, Value.vint 9])])
      "a" '.' [Value.vint 7, Value.vint 9] rfl).2.2.1 Value.vnull (Value.vint 9) 1 rfl rfl
  · exact ((c6_update_semantics (Value.vdict [("a", Value.vlist [Value.vint 7])]) "a" '.'
      [Value.vint 7] rfl).2.2.2 Value.vnull (Value.vint 9) rfl rfl).trans rfl

/-! ## Claim C4: path conflicts on intermediate scalars -/

theorem error_bind {α β : Type} (e : PyErr) (f : α → Except PyErr β) :
    (Except.error e : Except PyErr α) >>= f = .error e := rfl

theorem pyIndex_nil (i : Int) : pyIndex [] i = .error .indexError := by
  unfold pyIndex
  rw [if_neg (by simp only [List.length_nil, Nat.cast_zero]; omega),
    if_neg (by simp only [List.length_nil, Nat.cast_zero]; omega)]

theorem getEntrySteps_scalar (v : Value) (steps : List Step)
    (hc : containerB v = false) (hs : steps ≠ []) :
    getEntrySteps v steps = .ok .vnull := by
  match steps, hs with
  | s :: rest, _ => cases s <;> cases v <;> simp_all [getEntrySteps, containerB]

theorem addEntrySteps_truthy_scalar (item data : Value) (steps : List Step)
    (hc : containerB data = false) (ht : pyTruthy data = true) (hs : steps ≠ []) :
    ∃ msg, addEntrySteps item data steps = .error (.yeditErr msg) := by
  match steps, hs with
  | [st], _ =>
    cases st <;> cases data <;> simp_all [addEntrySteps, containerB]
  | st :: st2 :: rest, _ =>
    cases st <;> cases data <;>
      simp_all [addEntrySteps, containerB, pyTruthy]

theorem addEntrySteps_scalar (item data : Value) (steps : List Step)
    (hc : containerB data = false) (hs : steps ≠ []) :
    ∃ e, addEntrySteps item data steps = .error e := by
  match steps, hs with
  | [st], _ =>
    cases st <;> cases data <;> simp_all [addEntrySteps, containerB]
  | st :: st2 :: rest, _ =>
    cases st <;> cases data <;> simp_all [addEntrySteps, containerB] <;>
      split <;> exact ⟨_, rfl⟩

/-- A value through which `get_entry` successfully resolves to a non-empty
dict is itself truthy: empty containers, scalars and `None` cannot be
traversed through, and a resolution ending at the value itself yields the
non-empty dict. -/
theorem getEntrySteps_vdict_truthy (steps : List Step) (w : Value)
    (m : List (String × Value)) (hm : m ≠ [])
    (h : getEntrySteps w steps = .ok (.vdict m)) : pyTruthy w = true := by
  induction steps generalizing w with
  | nil =>
    simp only [getEntrySteps, Except.ok.injEq] at h
    subst h
    rcases m with _ | ⟨kv, m'⟩
    · exact absurd rfl hm
    · rfl
  | cons t ts ih =>
    cases w with
    | vnull => rw [getEntrySteps_scalar Value.vnull (t :: ts) rfl (by simp)] at h; simp at h
    | vbool b =>
      rw [getEntrySteps_scalar (Value.vbool b) (t :: ts) rfl (by simp)] at h
      simp at h
    | vint n =>
      rw [getEntrySteps_scalar (Value.vint n) (t :: ts) rfl (by simp)] at h
      simp at h
    | vstr s2 =>
      rw [getEntrySteps_scalar (Value.vstr s2) (t :: ts) rfl (by simp)] at h
      simp at h
    | vlist xs =>
      rcases xs with _ | ⟨x, xs'⟩
      · cases t with
        | key k => simp [getEntrySteps] at h
        | idx i =>
          simp only [getEntrySteps] at h
          split at h
          · rw [pyIndex_nil, error_bind] at h
            simp at h
          · simp at h
      · rfl
    | vdict m2 =>
      rcases m2 with _ | ⟨kv, m2'⟩
      · exfalso
        cases t with
        | key k =>
          have h' : getEntrySteps Value.vnull ts = .ok (.vdict m) := h
          have := ih Value.vnull h'
          simp [pyTruthy] at this
        | idx i => simp [getEntrySteps] at h
      · rfl

/-- The `add_entry` walk follows exactly the nodes `get_entry` resolved when
the resolution ends in a non-empty dict (every traversed mapping entry is
present and truthy, every traversed list index in range), so an error the
remaining steps produce from that dict propagates to the full path. -/
theorem addEntrySteps_walk_error (s1 : List Step) (d : Value)
    (m : List (String × Value)) (item : Value) (rest' : List Step) (e : PyErr)
    (hget : getEntrySteps d s1 = .ok (.vdict m)) (hm : m ≠ []) (hr : rest' ≠ [])
    (herr : addEntrySteps item (.vdict m) rest' = .error e) :
    addEntrySteps item d (s1 ++ rest') = .error e := by
  induction s1 generalizing d with
  | nil =>
    simp only [getEntrySteps, Except.ok.injEq] at hget
    subst hget
    simpa using herr
  | cons s s1' ih =>
    have htail : ∃ r rs, s1' ++ rest' = r :: rs := by
      rcases rest' with _ | ⟨r0, rs0⟩
      · exact absurd rfl hr
      · rcases s1' with _ | ⟨t, ts⟩
        · exact ⟨r0, rs0, rfl⟩
        · exact ⟨t, ts ++ r0 :: rs0, rfl⟩
    obtain ⟨r, rs, htail⟩ := htail
    cases s with
    | key k1 =>
      cases d with
      | vdict m1 =>
        have hget' : getEntrySteps (lookupD m1 k1) s1' = .ok (.vdict m) := hget
        cases hl : lookupVal k1 m1 with
        | none =>
          rw [show lookupD m1 k1 = Value.vnull from by unfold lookupD; rw [hl]; rfl] at hget'
          have := getEntrySteps_vdict_truthy s1' Value.vnull m hm hget'
          simp [pyTruthy] at this
        | some w =>
          rw [show lookupD m1 k1 = w from by unfold lookupD; rw [hl]; rfl] at hget'
          have htr := getEntrySteps_vdict_truthy s1' w m hm hget'
          have hrec := ih w hget'
          rw [show (Step.key k1 :: s1') ++ rest' = Step.key k1 :: (s1' ++ rest') from rfl,
            htail]
          rw [htail] at hrec
          simp only [addEntrySteps, hl, htr, if_true, hrec, error_bind]
      | vnull => simp [getEntrySteps] at hget
      | vbool b => simp [getEntrySteps] at hget
      | vint n => simp [getEntrySteps] at hget
      | vstr s2 => simp [getEntrySteps] at hget
      | vlist xs => simp [getEntrySteps] at hget
    | idx i =>
      cases d with
      | vlist xs =>
        simp only [getEntrySteps] at hget
        by_cases hii : i ≤ (xs.length : Int) - 1
        · rw [if_pos hii] at hget
          cases hpi : pyIndex xs i with
          | error e2 => rw [hpi, error_bind] at hget; simp at hget
          | ok el =>
            rw [hpi, ok_bind] at hget
            have hrec := ih el hget
            rw [show (Step.idx i :: s1') ++ rest' = Step.idx i :: (s1' ++ rest') from rfl,
              htail]
            rw [htail] at hrec
            simp only [addEntrySteps, if_pos hii, hpi, ok_bind, hrec, error_bind]
        · rw [if_neg hii] at hget
          simp at hget
      | vnull => simp [getEntrySteps] at hget
      | vbool b => simp [getEntrySteps] at hget
      | vint n => simp [getEntrySteps] at hget
      | vstr s2 => simp [getEntrySteps] at hget
      | vdict m1 => simp [getEntrySteps] at hget

/-- C4 (corrected) counterexample: at `{x: 0}` the intermediate key `x`
holds the falsy scalar 0, yet `put("x.y", "v")` raises nothing — the falsy
scalar is silently replaced by an empty mapping and the edit succeeds with
changed=true, whereas the claim requires a `PathConflictError` for every
scalar intermediate value. -/
theorem c4_counterexample :
    add_entry (Value.vdict [("x", Value.vint 0)]) "x.y" (Value.vstr "v") '.' =
      .ok (Value.vdict [("y", Value.vstr "v")],
        Value.vdict [("x", Value.vdict [("y", Value.vstr "v")])]) ∧
    put (Value.vdict [("x", Value.vint 0)]) "x.y" (Value.vstr "v") '.' =
      .ok (true, Value.vdict [("x", Value.vdict [("y", Value.vstr "v")])]) :=
  ⟨rfl, rfl⟩

/-- C4 (amended): when a non-terminal mapping-key step addresses a key whose
current value is a truthy scalar, `add_entry` raises a `YeditException`
(the spec's PathConflictError); `put` does not catch it — it propagates the
exception — and since the mutation ran on the deep copy and `put` only
commits a tree on a successful return, the engine's live tree is left
unmutated. -/
theorem c4_path_conflict (d : Value) (s1 : List Step) (m : List (String × Value))
    (k : String) (w : Value) (rest : List Step) (item : Value)
    (hget : getEntrySteps d s1 = .ok (.vdict m))
    (hl : lookupVal k m = some w) (ht : pyTruthy w = true)
    (hc : containerB w = false) (hrest : rest ≠ []) :
    (∃ msg, addEntrySteps item d (s1 ++ .key k :: rest) = .error (.yeditErr msg)) ∧
    (∀ (d0 : Value) (path : String) (value : Value) (sep : Char) (entry : Value)
      (e : PyErr),
      get d0 path sep = .ok entry → pyEq entry value = false →
      add_entry d0 path value sep = .error e →
      put d0 path value sep = .error e) := by
  constructor
  · have hm : m ≠ [] := by
      intro hcontra
      rw [hcontra] at hl
      simp [lookupVal] at hl
    obtain ⟨msg, hmsg⟩ := addEntrySteps_truthy_scalar item w rest hc ht hrest
    have hdict : addEntrySteps item (.vdict m) (.key k :: rest) =
        .error (.yeditErr msg) := by
      rcases rest with _ | ⟨r, rs⟩
      · exact absurd rfl hrest
      · simp only [addEntrySteps, hl, ht, if_true, hmsg, error_bind]
    exact ⟨msg, addEntrySteps_walk_error s1 d m item (.key k :: rest) _ hget hm
      (by simp) hdict⟩
  · intro d0 path value sep entry e hg hpe hadd
    unfold put
    rw [hg, ok_bind, if_neg (by simp [hpe]), hadd, error_bind]

/-- C4 witness: the truthy scalar 3 at the intermediate key `x`. -/
theorem c4_witness :
    (∃ msg, addEntrySteps (Value.vstr "v") (Value.vdict [("x", Value.vint 3)])
      ([] ++ Step.key "x" :: [Step.key "y"]) = .error (.yeditErr msg)) ∧
    put (Value.vdict [("x", Value.vint 3)]) "x.y" (Value.vstr "v") '.' =
      .error (.yeditErr "Error adding to object at path") := by
  obtain ⟨h1, h2⟩ := c4_path_conflict (Value.vdict [("x", Value.vint 3)]) []
    [("x", Value.vint 3)] "x" (Value.vint 3) [Step.key "y"] (Value.vstr "v")
    rfl rfl rfl rfl (by simp)
  exact ⟨h1, h2 (Value.vdict [("x", Value.vint 3)]) "x.y" (Value.vstr "v") '.'
    Value.vnull (.yeditErr "Error adding to object at path") rfl rfl rfl⟩

/-! ## Claim C8: upsert/resolve round trip -/

theorem pyIndex_ok_cases (xs : List Value) (i : Int) (v : Value)
    (h : pyIndex xs i = .ok v) :
    (0 ≤ i ∧ i < (xs.length : Int)) ∨ (-(xs.length : Int) ≤ i ∧ i < 0) := by
  unfold pyIndex at h
  split at h
  · rename_i h1
    exact Or.inl h1
  · split at h
    · rename_i h2
      exact Or.inr h2
    · cases h

theorem pyIndex_set (xs : List Value) (i : Int) (v : Value)
    (hb : (0 ≤ i ∧ i < (xs.length : Int)) ∨ (-(xs.length : Int) ≤ i ∧ i < 0)) :
    pyIndex (xs.set (normIdx i xs.length) v) i = .ok v := by
  have hn : normIdx i xs.length < xs.length := by
    unfold normIdx
    split <;> omega
  unfold pyIndex
  rcases hb with ⟨h0, h1⟩ | ⟨h0, h1⟩
  · rw [if_pos ⟨h0, by rw [List.length_set]; exact h1⟩,
      show i.toNat = normIdx i xs.length from by unfold normIdx; rw [if_neg (by omega)],
      getD_set_self _ _ _ _ hn]
  · rw [if_neg (by rw [List.length_set]; omega),
      if_pos ⟨by rw [List.length_set]; exact h0, h1⟩, List.length_set,
      show (i + (xs.length : Int)).toNat = normIdx i xs.length from by
        unfold normIdx
        rw [if_pos h1],
      getD_set_self _ _ _ _ hn]

/-- Round trip at the step level: a successful `add_entry` walk/terminal run
stores `item` so that navigating the same steps retrieves exactly `item`. -/
theorem addEntrySteps_roundtrip (steps : List Step) (item data ret d' : Value)
    (hs : steps ≠ []) (h : addEntrySteps item data steps = .ok (ret, d')) :
    getEntrySteps d' steps = .ok item := by
  induction steps generalizing data ret d' with
  | nil => exact absurd rfl hs
  | cons s rest ih =>
    rcases rest with _ | ⟨r2, rs⟩
    · cases s with
      | idx i =>
        cases data with
        | vlist xs =>
          simp only [addEntrySteps] at h
          by_cases h1 : i ≤ (xs.length : Int)
          · rw [if_pos h1] at h
            by_cases h2 : i > (xs.length : Int) - 1
            · rw [if_pos h2] at h
              cases h
              have hieq : i = (xs.length : Int) := by omega
              have hpy : pyIndex (xs ++ [item]) i = .ok item := by
                unfold pyIndex
                rw [if_pos ⟨by omega, by simp; omega⟩,
                  show i.toNat = xs.length from by omega, getD_append_len]
              simp only [getEntrySteps]
              rw [if_pos (by simp; omega), hpy, ok_bind]
            · rw [if_neg h2] at h
              by_cases h3 : -(xs.length : Int) ≤ i
              · rw [if_pos h3] at h
                cases h
                have hb : (0 ≤ i ∧ i < (xs.length : Int)) ∨
                    (-(xs.length : Int) ≤ i ∧ i < 0) := by
                  rcases le_or_lt 0 i with h0 | h0
                  · exact Or.inl ⟨h0, by omega⟩
                  · exact Or.inr ⟨h3, h0⟩
                simp only [getEntrySteps]
                rw [if_pos (by rw [List.length_set]; omega), pyIndex_set xs i item hb,
                  ok_bind]
              · rw [if_neg h3] at h
                cases h
          · rw [if_neg h1] at h
            cases h
        | vnull => simp [addEntrySteps] at h
        | vbool b => simp [addEntrySteps] at h
        | vint n => simp [addEntrySteps] at h
        | vstr s2 => simp [addEntrySteps] at h
        | vdict m => simp [addEntrySteps] at h
      | key k =>
        cases data with
        | vdict m =>
          simp only [addEntrySteps, Except.ok.injEq, Prod.mk.injEq] at h
          obtain ⟨h1, h2⟩ := h
          subst h2
          simp only [getEntrySteps]
          rw [show lookupD (dictSet m k item) k = item from by
            unfold lookupD
            rw [lookupVal_dictSet_self]
            rfl]
        | vnull => simp [addEntrySteps] at h
        | vbool b => simp [addEntrySteps] at h
        | vint n => simp [addEntrySteps] at h
        | vstr s2 => simp [addEntrySteps] at h
        | vlist xs => simp [addEntrySteps] at h
    · cases s with
      | key k =>
        cases data with
        | vdict m =>
          simp only [addEntrySteps] at h
          cases hl : lookupVal k m with
          | some v =>
            rw [hl] at h
            by_cases htv : pyTruthy v = true
            · simp only [htv, if_true] at h
              cases hrec : addEntrySteps item v (r2 :: rs) with
              | error e => rw [hrec, error_bind] at h; cases h
              | ok p =>
                obtain ⟨ret2, v2⟩ := p
                rw [hrec, ok_bind] at h
                cases h
                simp only [getEntrySteps]
                rw [show lookupD (dictSet m k v2) k = v2 from by
                  unfold lookupD
                  rw [lookupVal_dictSet_self]
                  rfl]
                exact ih v ret2 v2 (by simp) hrec
            · simp only [htv, if_false] at h
              cases hrec : addEntrySteps item (.vdict []) (r2 :: rs) with
              | error e => rw [hrec, error_bind] at h; cases h
              | ok p =>
                obtain ⟨ret2, v2⟩ := p
                rw [hrec, ok_bind] at h
                cases h
                simp only [getEntrySteps]
                rw [show lookupD (dictSet m k v2) k = v2 from by
                  unfold lookupD
                  rw [lookupVal_dictSet_self]
                  rfl]
                exact ih (.vdict []) ret2 v2 (by simp) hrec
          | none =>
            rw [hl] at h
            cases hrec : addEntrySteps item (.vdict []) (r2 :: rs) with
            | error e => rw [hrec, error_bind] at h; cases h
            | ok p =>
              obtain ⟨ret2, v2⟩ := p
              rw [hrec, ok_bind] at h
              cases h
              simp only [getEntrySteps]
              rw [show lookupD (dictSet m k v2) k = v2 from by
                unfold lookupD
                rw [lookupVal_dictSet_self]
                rfl]
              exact ih (.vdict []) ret2 v2 (by simp) hrec
        | vnull => simp only [addEntrySteps] at h; split at h <;> cases h
        | vbool b => simp only [addEntrySteps] at h; split at h <;> cases h
        | vint n => simp only [addEntrySteps] at h; split at h <;> cases h
        | vstr s2 => simp only [addEntrySteps] at h; split at h <;> cases h
        | vlist xs => simp only [addEntrySteps] at h; split at h <;> cases h
      | idx i =>
        cases data with
        | vlist xs =>
          simp only [addEntrySteps] at h
          by_cases hii : i ≤ (xs.length : Int) - 1
          · rw [if_pos hii] at h
            cases hpi : pyIndex xs i with
            | error e => rw [hpi, error_bind] at h; cases h
            | ok el =>
              rw [hpi, ok_bind] at h
              cases hrec : addEntrySteps item el (r2 :: rs) with
              | error e => rw [hrec, error_bind] at h; cases h
              | ok p =>
                obtain ⟨ret2, v2⟩ := p
                rw [hrec, ok_bind] at h
                cases h
                have hb := pyIndex_ok_cases xs i el hpi
                simp only [getEntrySteps]
                rw [if_pos (by rw [List.length_set]; omega),
                  pyIndex_set xs i v2 hb, ok_bind]
                exact ih el ret2 v2 (by simp) hrec
          · rw [if_neg hii] at h
            cases h
        | vnull => simp [addEntrySteps] at h
        | vbool b => simp [addEntrySteps] at h
        | vint n => simp [addEntrySteps] at h
        | vstr s2 => simp [addEntrySteps] at h
        | vdict m => simp [addEntrySteps] at h

/-- String-level round trip: a successful non-root `add_entry` (non-`None`
result) makes `get_entry` on the resulting tree return the written value. -/
theorem add_entry_roundtrip (d : Value) (key : String) (item : Value) (sep : Char)
    (ret d' : Value) (hk : key ≠ "")
    (hadd : add_entry d key item sep = .ok (ret, d'))
    (hret : isVNull ret = false) :
    get_entry d' key sep = .ok item := by
  unfold add_entry at hadd
  rw [if_neg hk] at hadd
  by_cases hval : valid_key key sep = false ∧ containerB d = true
  · rw [if_pos hval] at hadd
    cases hadd
    simp [isVNull] at hret
  · rw [if_neg hval] at hadd
    rcases hsteps : parse_key key sep with _ | ⟨st, sts⟩
    · rw [hsteps] at hadd
      cases hadd
    · rw [hsteps] at hadd
      have hvalid : valid_key key sep = true := by
        by_cases hv : valid_key key sep = false
        · exfalso
          have hcd : containerB d = false := by
            rcases Bool.eq_false_or_eq_true (containerB d) with hc | hc
            · exact absurd ⟨hv, hc⟩ hval
            · exact hc
          obtain ⟨e, he⟩ := addEntrySteps_scalar item d (st :: sts) hcd (by simp)
          rw [he] at hadd
          cases hadd
        · revert hv
          cases valid_key key sep <;> simp
      have hrt := addEntrySteps_roundtrip (st :: sts) item d ret d' (by simp) hadd
      unfold get_entry
      rw [if_neg (fun hcon => absurd hcon.2.1 (by simp [hvalid])), hsteps]
      exact hrt

/-- C8: write/read round trip.  For every tree, every non-root path, and
every value, if `add_entry` succeeds (returns a non-`None` result), then
`get_entry` on the resulting tree at the same path returns exactly the
just-written value.  The statement covers paths of any number of mixed
mapping-key and sequence-index steps, which includes all paths of up to 5
steps. -/
theorem c8_roundtrip (d : Value) (key : String) (item : Value) (sep : Char)
    (ret d' : Value) (hk : key ≠ "")
    (hadd : add_entry d key item sep = .ok (ret, d'))
    (hret : isVNull ret = false) :
    get_entry d' key sep = .ok item :=
  add_entry_roundtrip d key item sep ret d' hk hadd hret

/-- C8 witness: `put`-style upsert of `d` at `a.b.c` into the empty mapping,
then resolution of the same path. -/
theorem c8_witness :
    get_entry
      (Value.vdict [("a", Value.vdict [("b", Value.vdict [("c", Value.vstr "d")])])])
      "a.b.c" '.' = .ok (Value.vstr "d") :=
  c8_roundtrip (Value.vdict []) "a.b.c" (Value.vstr "d") '.'
    (Value.vdict [("c", Value.vstr "d")])
    (Value.vdict [("a", Value.vdict [("b", Value.vdict [("c", Value.vstr "d")])])])
    (by decide) rfl rfl

/-! ## Claim C7: put is idempotent -/

theorem keyMem_false_ne (k : String) (l : List String) (h : keyMem k l = false) :
    ∀ s ∈ l, k ≠ s := by
  induction l with
  | nil =>
    intro s hs
    cases hs
  | cons s0 rest ih =>
    intro s hs
    simp only [keyMem, Bool.or_eq_false_iff, decide_eq_false_iff_not] at h
    rcases List.mem_cons.mp hs with rfl | hmem
    · exact fun hc => h.1 hc.symm
    · exact ih h.2 s hmem

theorem lookup_self_of_nodup (m : List (String × Value))
    (hnd : nodupKeys (m.map Prod.fst) = true) :
    ∀ kv ∈ m, lookupVal kv.1 m = some kv.2 := by
  induction m with
  | nil =>
    intro kv hkv
    cases hkv
  | cons kv0 rest ih =>
    obtain ⟨k0, v0⟩ := kv0
    simp only [List.map_cons, nodupKeys, Bool.and_eq_true, Bool.not_eq_true'] at hnd
    obtain ⟨hk0, hrest⟩ := hnd
    intro kv hkv
    rcases List.mem_cons.mp hkv with rfl | hmem
    · simp [lookupVal]
    · have hne : k0 ≠ kv.1 :=
        keyMem_false_ne k0 (rest.map Prod.fst) hk0 kv.1 (List.mem_map_of_mem _ hmem)
      simp only [lookupVal, if_neg hne]
      exact ih hrest kv hmem

mutual

theorem pyEq_refl : (v : Value) → wf v = true → pyEq v v = true
  | .vnull, _ => rfl
  | .vbool b, _ => by cases b <;> rfl
  | .vint n, _ => by simp [pyEq]
  | .vstr s2, _ => by simp [pyEq]
  | .vlist xs, h => by
    have h' : wfList xs = true := by simpa [wf] using h
    simp [pyEq, pyEqList_refl xs h']
  | .vdict m, h => by
    have h' : nodupKeys (m.map Prod.fst) = true ∧ wfEntries m = true := by
      simpa [wf] using h
    simp [pyEq, pyEqEntries_refl m m (fun kv hkv => hkv) h'.1 h'.2]

theorem pyEqList_refl : (xs : List Value) → wfList xs = true → pyEqList xs xs = true
  | [], _ => rfl
  | x :: xs, h => by
    have h' : wf x = true ∧ wfList xs = true := by simpa [wfList] using h
    simp [pyEqList, pyEq_refl x h'.1, pyEqList_refl xs h'.2]

theorem pyEqEntries_refl : (sub m : List (String × Value)) →
    (∀ kv ∈ sub, kv ∈ m) → nodupKeys (m.map Prod.fst) = true →
    wfEntries sub = true → pyEqEntries sub m = true
  | [], _, _, _, _ => rfl
  | kv :: xs, m, hsub, hnd, hwf => by
    have hk : lookupVal kv.1 m = some kv.2 :=
      lookup_self_of_nodup m hnd kv (hsub kv (List.mem_cons_self kv xs))
    have h' : wf kv.2 = true ∧ wfEntries xs = true := by simpa [wfEntries] using hwf
    simp [pyEqEntries, hk, pyEq_refl kv.2 h'.1,
      pyEqEntries_refl xs m (fun kv2 h2 => hsub kv2 (List.mem_cons_of_mem kv h2)) hnd h'.2]

end

/-- C7: `put` is idempotent.  First part: when a `put` of a well-formed
value (no duplicate dict keys, i.e. a Python-representable value) succeeds
with changed=true, running the same `put` on the resulting tree yields
changed=false and the identical tree.  Second part: `put` is a
changed=false no-op whenever the value currently resolved at the path
already compares `==`-equal to the supplied value. -/
theorem c7_put_idempotent :
    (∀ (d : Value) (path : String) (v : Value) (sep : Char) (d' : Value),
      wf v = true → put d path v sep = .ok (true, d') →
      put d' path v sep = .ok (false, d')) ∧
    (∀ (d : Value) (path : String) (v : Value) (sep : Char) (entry : Value),
      get d path sep = .ok entry → pyEq entry v = true →
      put d path v sep = .ok (false, d)) := by
  have hnoop : ∀ (d : Value) (path : String) (v : Value) (sep : Char) (entry : Value),
      get d path sep = .ok entry → pyEq entry v = true →
      put d path v sep = .ok (false, d) := by
    intro d path v sep entry hg hpe
    unfold put
    rw [hg, ok_bind, if_pos hpe]
  refine ⟨?_, hnoop⟩
  intro d path v sep d' hwf hput
  unfold put at hput
  cases hg : get d path sep with
  | error e =>
    rw [hg, error_bind] at hput
    cases hput
  | ok entry =>
    rw [hg, ok_bind] at hput
    by_cases hpe : pyEq entry v = true
    · rw [if_pos hpe] at hput
      cases hput
    · rw [if_neg hpe] at hput
      cases hadd : add_entry d path v sep with
      | error e =>
        rw [hadd, error_bind] at hput
        cases hput
      | ok p =>
        obtain ⟨ret, tmp⟩ := p
        rw [hadd, ok_bind] at hput
        have hput : (if isVNull ret = true then Except.ok (false, d)
            else if path = "" then
              (if containerB ret = true then Except.ok (true, ret)
               else Except.ok (false, d))
            else Except.ok (true, tmp)) = Except.ok (true, d') := hput
        by_cases hrn : isVNull ret = true
        · rw [if_pos hrn] at hput
          cases hput
        · rw [if_neg hrn] at hput
          by_cases hroot : path = ""
          · rw [if_pos hroot] at hput
            by_cases hcr : containerB ret = true
            · rw [if_pos hcr] at hput
              simp only [Except.ok.injEq, Prod.mk.injEq, true_and] at hput
              subst hput
              subst hroot
              unfold add_entry at hadd
              rw [if_pos rfl] at hadd
              simp only [Except.ok.injEq, Prod.mk.injEq] at hadd
              obtain ⟨hv, -⟩ := hadd
              subst hv
              exact hnoop v "" v sep v rfl (pyEq_refl v hwf)
            · rw [if_neg hcr] at hput
              cases hput
          · rw [if_neg hroot] at hput
            simp only [Except.ok.injEq, Prod.mk.injEq, true_and] at hput
            subst hput
            have hretf : isVNull ret = false := by
              revert hrn
              cases isVNull ret <;> simp
            have hround := add_entry_roundtrip d path v sep ret tmp hroot hadd hretf
            have hget2 : get tmp path sep = .ok v := by
              unfold get
              rw [hround]
            exact hnoop tmp path v sep v hget2 (pyEq_refl v hwf)

/-- C7 witness: `put` of `d` at `a.b.c` into the empty mapping, twice. -/
theorem c7_witness :
    put (Value.vdict [("a", Value.vdict [("b", Value.vdict [("c", Value.vstr "d")])])])
      "a.b.c" (Value.vstr "d") '.' =
      .ok (false,
        Value.vdict [("a", Value.vdict [("b", Value.vdict [("c", Value.vstr "d")])])]) :=
  c7_put_idempotent.1 (Value.vdict []) "a.b.c" (Value.vstr "d") '.'
    (Value.vdict [("a", Value.vdict [("b", Value.vdict [("c", Value.vstr "d")])])])
    rfl rfl

/-! ## Claim C9: the root stays a container -/

theorem bind_ok_inv {α β : Type} (x : Except PyErr α) (f : α → β) (y : β)
    (h : (x >>= fun a => Except.ok (f a)) = .ok y) : ∃ a, x = .ok a ∧ y = f a := by
  cases x with
  | error e => rw [error_bind] at h; cases h
  | ok a =>
    rw [ok_bind] at h
    cases h
    exact ⟨a, rfl, rfl⟩

theorem containerB_not_vnull (v : Value) (hc : containerB v = true) :
    isVNull v = false := by
  cases v <;> simp_all [containerB, isVNull]

/-- `add_entry`'s walk and terminal operations keep the root node's
constructor: starting from a container, a successful run ends in a
container. -/
theorem addEntrySteps_container (item data : Value) (steps : List Step)
    (ret d2 : Value) (hc : containerB data = true)
    (h : addEntrySteps item data steps = .ok (ret, d2)) :
    containerB d2 = true := by
  match steps with
  | [] => simp [addEntrySteps] at h
  | [.idx i] =>
    cases data with
    | vlist xs =>
      simp only [addEntrySteps] at h
      split at h
      · split at h
        · cases h; rfl
        · split at h
          · cases h; rfl
          · cases h
      · cases h
    | vdict m => simp [addEntrySteps] at h
    | vnull => simp [containerB] at hc
    | vbool b => simp [containerB] at hc
    | vint n => simp [containerB] at hc
    | vstr s2 => simp [containerB] at hc
  | [.key k] =>
    cases data with
    | vdict m =>
      simp only [addEntrySteps, Except.ok.injEq, Prod.mk.injEq] at h
      obtain ⟨-, h2⟩ := h
      rw [← h2]
      rfl
    | vlist xs => simp [addEntrySteps] at h
    | vnull => simp [containerB] at hc
    | vbool b => simp [containerB] at hc
    | vint n => simp [containerB] at hc
    | vstr s2 => simp [containerB] at hc
  | .key k :: r2 :: rs =>
    cases data with
    | vdict m =>
      simp only [addEntrySteps] at h
      cases hl : lookupVal k m with
      | some v =>
        simp only [hl] at h
        split at h
        · obtain ⟨p, -, hy⟩ := bind_ok_inv _ _ _ h
          rw [show d2 = Value.vdict (dictSet m k p.2) from congrArg Prod.snd hy]
          rfl
        · obtain ⟨p, -, hy⟩ := bind_ok_inv _ _ _ h
          rw [show d2 = Value.vdict (dictSet m k p.2) from congrArg Prod.snd hy]
          rfl
      | none =>
        simp only [hl] at h
        obtain ⟨p, -, hy⟩ := bind_ok_inv _ _ _ h
        rw [show d2 = Value.vdict (dictSet m k p.2) from congrArg Prod.snd hy]
        rfl
    | vlist xs =>
      simp only [addEntrySteps] at h
      split at h <;> cases h
    | vnull => simp [containerB] at hc
    | vbool b => simp [containerB] at hc
    | vint n => simp [containerB] at hc
    | vstr s2 => simp [containerB] at hc
  | .idx i :: r2 :: rs =>
    cases data with
    | vlist xs =>
      simp only [addEntrySteps] at h
      split at h
      · cases hpi : pyIndex xs i with
        | error e => rw [hpi, error_bind] at h; cases h
        | ok el =>
          rw [hpi, ok_bind] at h
          obtain ⟨p, -, hy⟩ := bind_ok_inv _ _ _ h
          rw [show d2 = Value.vlist (xs.set (normIdx i xs.length) p.2) from
            congrArg Prod.snd hy]
          rfl
      · cases h
    | vdict m => simp [addEntrySteps] at h
    | vnull => simp [containerB] at hc
    | vbool b => simp [containerB] at hc
    | vint n => simp [containerB] at hc
    | vstr s2 => simp [containerB] at hc

theorem replaceResolved_container (d : Value) (steps : List Step) (newv : Value)
    (hc : containerB d = true) (hn : containerB newv = true) :
    containerB (replaceResolved d steps newv) = true := by
  match steps with
  | [] =>
    simp only [replaceResolved]
    exact hn
  | st :: rest =>
    cases st with
    | key k =>
      cases d with
      | vdict m =>
        simp only [replaceResolved]
        cases lookupVal k m <;> rfl
      | vlist xs => exact hc
      | vnull => simp [containerB] at hc
      | vbool b => simp [containerB] at hc
      | vint n => simp [containerB] at hc
      | vstr s2 => simp [containerB] at hc
    | idx i =>
      cases d with
      | vlist xs =>
        simp only [replaceResolved]
        split <;> rfl
      | vdict m => exact hc
      | vnull => simp [containerB] at hc
      | vbool b => simp [containerB] at hc
      | vint n => simp [containerB] at hc
      | vstr s2 => simp [containerB] at hc

theorem put_container (d : Value) (path : String) (v : Value) (sep : Char)
    (b : Bool) (d1 : Value) (hc : containerB d = true)
    (h : put d path v sep = .ok (b, d1)) : containerB d1 = true := by
  unfold put at h
  cases hg : get d path sep with
  | error e => rw [hg, error_bind] at h; cases h
  | ok entry =>
    rw [hg, ok_bind] at h
    by_cases hpe : pyEq entry v = true
    · rw [if_pos hpe] at h
      cases h
      exact hc
    · rw [if_neg hpe] at h
      cases hadd : add_entry d path v sep with
      | error e => rw [hadd, error_bind] at h; cases h
      | ok p =>
        obtain ⟨ret, tmp⟩ := p
        rw [hadd, ok_bind] at h
        have h : (if isVNull ret = true then Except.ok (false, d)
            else if path = "" then
              (if containerB ret = true then Except.ok (true, ret)
               else Except.ok (false, d))
            else Except.ok (true, tmp)) = Except.ok (b, d1) := h
        by_cases hrn : isVNull ret = true
        · rw [if_pos hrn] at h
          cases h
          exact hc
        · rw [if_neg hrn] at h
          by_cases hroot : path = ""
          · rw [if_pos hroot] at h
            by_cases hcr : containerB ret = true
            · rw [if_pos hcr] at h
              cases h
              exact hcr
            · rw [if_neg hcr] at h
              cases h
              exact hc
          · rw [if_neg hroot] at h
            simp only [Except.ok.injEq, Prod.mk.injEq] at h
            obtain ⟨-, hd⟩ := h
            rw [← hd]
            unfold add_entry at hadd
            rw [if_neg hroot] at hadd
            by_cases hval : valid_key path sep = false ∧ containerB d = true
            · rw [if_pos hval] at hadd
              simp only [Except.ok.injEq, Prod.mk.injEq] at hadd
              obtain ⟨-, hd⟩ := hadd
              rw [← hd]
              exact hc
            · rw [if_neg hval] at hadd
              rcases hsteps : parse_key path sep with _ | ⟨st, sts⟩
              · rw [hsteps] at hadd
                cases hadd
              · rw [hsteps] at hadd
                exact addEntrySteps_container v d (st :: sts) ret tmp hc hadd

theorem removeSteps_container (data : Value) (steps : List Step)
    (r : Option Bool) (d2 : Value) (hc : containerB data = true)
    (h : removeSteps data steps = .ok (r, d2)) : containerB d2 = true := by
  match steps with
  | [] => simp [removeSteps] at h
  | [.idx i] =>
    cases data with
    | vlist xs =>
      simp only [removeSteps] at h
      split at h
      · split at h
        · cases h; rfl
        · cases h
      · cases h
        exact hc
    | vdict m =>
      simp only [removeSteps] at h
      cases h
      exact hc
    | vnull => simp [containerB] at hc
    | vbool b => simp [containerB] at hc
    | vint n => simp [containerB] at hc
    | vstr s2 => simp [containerB] at hc
  | [.key k] =>
    cases data with
    | vdict m =>
      simp only [removeSteps] at h
      split at h
      · cases h; rfl
      · cases h
    | vlist xs =>
      simp only [removeSteps] at h
      cases h
      exact hc
    | vnull => simp [containerB] at hc
    | vbool b => simp [containerB] at hc
    | vint n => simp [containerB] at hc
    | vstr s2 => simp [containerB] at hc
  | .key k :: r2 :: rs =>
    cases data with
    | vdict m =>
      simp only [removeSteps] at h
      cases hl : lookupVal k m with
      | some sub =>
        rw [hl] at h
        obtain ⟨p, -, hy⟩ := bind_ok_inv _ _ _ h
        rw [show d2 = Value.vdict (dictSet m k p.2) from congrArg Prod.snd hy]
        rfl
      | none =>
        rw [hl] at h
        obtain ⟨p, -, hy⟩ := bind_ok_inv _ _ _ h
        rw [show d2 = Value.vdict m from congrArg Prod.snd hy]
        rfl
    | vlist xs =>
      simp only [removeSteps] at h
      cases h
      exact hc
    | vnull => simp [containerB] at hc
    | vbool b => simp [containerB] at hc
    | vint n => simp [containerB] at hc
    | vstr s2 => simp [containerB] at hc
  | .idx i :: r2 :: rs =>
    cases data with
    | vlist xs =>
      simp only [removeSteps] at h
      split at h
      · cases hpi : pyIndex xs i with
        | error e => rw [hpi, error_bind] at h; cases h
        | ok el =>
          rw [hpi, ok_bind] at h
          obtain ⟨p, -, hy⟩ := bind_ok_inv _ _ _ h
          rw [show d2 = Value.vlist (xs.set (normIdx i xs.length) p.2) from
            congrArg Prod.snd hy]
          rfl
      · cases h
        exact hc
    | vdict m =>
      simp only [removeSteps] at h
      cases h
      exact hc
    | vnull => simp [containerB] at hc
    | vbool b => simp [containerB] at hc
    | vint n => simp [containerB] at hc
    | vstr s2 => simp [containerB] at hc

theorem remove_entry_container (data : Value) (key : String) (index : Option Int)
    (value : Option Value) (sep : Char) (r : Option Bool) (d2 : Value)
    (hc : containerB data = true)
    (h : remove_entry data key index value sep = .ok (r, d2)) :
    containerB d2 = true := by
  unfold remove_entry at h
  by_cases hroot : key = ""
  · rw [if_pos hroot] at h
    cases data with
    | vdict m =>
      cases value with
      | some v =>
        cases v with
        | vstr s2 =>
          have h : (if (lookupVal s2 m).isSome = true
              then Except.ok (some true, Value.vdict (dictDel m s2))
              else Except.error PyErr.keyError) = Except.ok (r, d2) := h
          split at h
          · cases h; rfl
          · cases h
        | vnull => cases h
        | vbool b => cases h
        | vint n => cases h
        | vlist xs => cases h
        | vdict m2 => cases h
      | none =>
        cases index with
        | some i => cases h
        | none => cases h; rfl
    | vlist xs =>
      cases value with
      | some v =>
        have h : (match pyIndexOf xs v with
            | none => Except.ok (some false, Value.vlist xs)
            | some n => Except.ok (some true, Value.vlist (xs.eraseIdx n))) =
            Except.ok (r, d2) := h
        cases hfind : pyIndexOf xs v with
        | none => rw [hfind] at h; cases h; exact hc
        | some n => rw [hfind] at h; cases h; rfl
      | none =>
        cases index with
        | some i =>
          have h : (if 0 ≤ i ∧ i < (xs.length : Int) then
                Except.ok (some true, Value.vlist (xs.eraseIdx i.toNat))
              else if -(xs.length : Int) ≤ i ∧ i < 0 then
                Except.ok (some true, Value.vlist (xs.eraseIdx (i + xs.length).toNat))
              else Except.error PyErr.indexError) = Except.ok (r, d2) := h
          split at h
          · cases h; rfl
          · split at h
            · cases h; rfl
            · cases h
        | none => cases h; rfl
    | vnull => simp [containerB] at hc
    | vbool b => simp [containerB] at hc
    | vint n => simp [containerB] at hc
    | vstr s2 => simp [containerB] at hc
  · rw [if_neg hroot] at h
    by_cases hval : valid_key key sep = false ∧ containerB data = true
    · rw [if_pos hval] at h
      cases h
      exact hc
    · rw [if_neg hval] at h
      exact removeSteps_container data (parse_key key sep) r d2 hc h

/-- C9: root-container invariant.  Starting from a tree whose root is a
mapping or sequence, every engine edit operation that reports changed=true
returns a tree whose root is still a mapping or sequence; and a `put` at the
root path `""` commits the new value only when it is a mapping or sequence
(changed=false and the old tree otherwise, changed=true and the new root
when it is a container that differs from the current tree). -/
theorem c9_root_container (sep : Char) :
    (∀ (d : Value) (path : String) (v : Value) (d' : Value),
      containerB d = true → put d path v sep = .ok (true, d') →
      containerB d' = true) ∧
    (∀ (d : Value) (path : String) (v : Value) (index : Option Int) (curr : Value)
      (d' : Value),
      containerB d = true → update d path v index curr sep = .ok (true, d') →
      containerB d' = true) ∧
    (∀ (d : Value) (path : String) (v : Value) (d' : Value),
      containerB d = true → append d path v sep = .ok (true, d') →
      containerB d' = true) ∧
    (∀ (d : Value) (path : String) (v : Value) (i : Int) (d' : Value),
      containerB d = true → insert d path v i sep = .ok (true, d') →
      containerB d' = true) ∧
    (∀ (d : Value) (path : String) (index : Option Int) (value : Option Value)
      (d' : Value),
      containerB d = true → delete d path index value sep = .ok (true, d') →
      containerB d' = true) ∧
    (∀ (d : Value) (path : String) (item : Value) (d' : Value),
      containerB d = true → pop d path item sep = .ok (true, d') →
      containerB d' = true) ∧
    (∀ (d : Value) (v : Value), containerB v = false →
      put d "" v sep = .ok (false, d)) ∧
    (∀ (d : Value) (v : Value), containerB v = true → pyEq d v = false →
      put d "" v sep = .ok (true, v)) := by
  refine ⟨?_, ?_, ?_, ?_, ?_, ?_, ?_, ?_⟩
  · intro d path v d' hc h
    exact put_container d path v sep true d' hc h
  · intro d path v index curr d' hc h
    unfold update at h
    cases hg : get d path sep with
    | error e => rw [hg, error_bind] at h; cases h
    | ok entry =>
      rw [hg, ok_bind] at h
      cases entry with
      | vdict m =>
        cases v with
        | vdict vm =>
          have h : Except.ok (true, replaceResolved d (parse_key path sep)
              (Value.vdict (vm.foldl (fun acc kv => dictSet acc kv.1 kv.2) m))) =
              (Except.ok (true, d') : Except PyErr (Bool × Value)) := h
          cases h
          exact replaceResolved_container _ _ _ hc rfl
        | vnull => cases h
        | vbool b => cases h
        | vint n => cases h
        | vstr s2 => cases h
        | vlist ys => cases h
      | vlist xs =>
        have h : (match (if pyTruthy curr = true then
              match pyIndexOf xs curr with
              | some n => some (some (n : Int))
              | none => none
            else some index : Option (Option Int)) with
          | none => Except.ok (false, d)
          | some none =>
            match pyIndexOf xs v with
            | none => Except.ok (true, replaceResolved d (parse_key path sep)
                (Value.vlist (xs ++ [v])))
            | some _ => Except.ok (false, d)
          | some (some i) => do
            let cur ← pyIndex xs i
            if pyEq cur v = false then
              Except.ok (true, replaceResolved d (parse_key path sep)
                (Value.vlist (xs.set (normIdx i xs.length) v)))
            else
              match pyIndexOf xs v with
              | none => Except.ok (true, replaceResolved d (parse_key path sep)
                  (Value.vlist (xs ++ [v])))
              | some _ => Except.ok (false, d) : Except PyErr (Bool × Value)) =
            Except.ok (true, d') := h
        by_cases htc : pyTruthy curr = true
        · rw [if_pos htc] at h
          cases hfind : pyIndexOf xs curr with
          | some n =>
            simp only [hfind] at h
            cases hpy : pyIndex xs (n : Int) with
            | error e => rw [hpy, error_bind] at h; cases h
            | ok cur =>
              rw [hpy, ok_bind] at h
              split at h
              · cases h
                exact replaceResolved_container _ _ _ hc rfl
              · cases hfind2 : pyIndexOf xs v with
                | none =>
                  simp only [hfind2] at h
                  cases h
                  exact replaceResolved_container _ _ _ hc rfl
                | some n2 =>
                  simp only [hfind2] at h
                  cases h
          | none =>
            simp only [hfind] at h
            cases h
        · rw [if_neg htc] at h
          cases index with
          | none =>
            cases hfind : pyIndexOf xs v with
            | none =>
              simp only [hfind] at h
              cases h
              exact replaceResolved_container _ _ _ hc rfl
            | some n =>
              simp only [hfind] at h
              cases h
          | some i =>
            have h : (do
                let cur ← pyIndex xs i
                if pyEq cur v = false then
                  Except.ok (true, replaceResolved d (parse_key path sep)
                    (Value.vlist (xs.set (normIdx i xs.length) v)))
                else
                  match pyIndexOf xs v with
                  | none => Except.ok (true, replaceResolved d (parse_key path sep)
                      (Value.vlist (xs ++ [v])))
                  | some _ => Except.ok (false, d) : Except PyErr (Bool × Value)) =
                Except.ok (true, d') := h
            cases hpy : pyIndex xs i with
            | error e => rw [hpy, error_bind] at h; cases h
            | ok cur =>
              rw [hpy, ok_bind] at h
              split at h
              · cases h
                exact replaceResolved_container _ _ _ hc rfl
              · cases hfind2 : pyIndexOf xs v with
                | none =>
                  simp only [hfind2] at h
                  cases h
                  exact replaceResolved_container _ _ _ hc rfl
                | some n2 =>
                  simp only [hfind2] at h
                  cases h
      | vnull => cases h
      | vbool b => cases h
      | vint n => cases h
      | vstr s2 => cases h
  · intro d path v d' hc h
    unfold append at h
    cases hg : get d path sep with
    | error e => rw [hg, error_bind] at h; cases h
    | ok entry =>
      rw [hg, ok_bind] at h
      by_cases hn : isVNull entry = true
      · rw [if_pos hn] at h
        cases hput1 : put d path (.vlist []) sep with
        | error e => rw [hput1, error_bind] at h; cases h
        | ok q =>
          obtain ⟨b0, dP⟩ := q
          rw [hput1, ok_bind] at h
          have hcP : containerB dP = true :=
            put_container d path (.vlist []) sep b0 dP hc hput1
          have h : (do
              let e ← get_entry dP path sep
              (match e with
                | Value.vlist xs => Except.ok (true, replaceResolved dP
                    (parse_key path sep) (Value.vlist (xs ++ [v])))
                | _ => Except.ok (false, dP) : Except PyErr (Bool × Value))) =
              Except.ok (true, d') := h
          cases hge : get_entry dP path sep with
          | error e => rw [hge, error_bind] at h; cases h
          | ok e1 =>
            rw [hge, ok_bind] at h
            cases e1 with
            | vlist xs =>
              cases h
              exact replaceResolved_container _ _ _ hcP rfl
            | vnull => cases h
            | vbool b => cases h
            | vint n => cases h
            | vstr s2 => cases h
            | vdict m => cases h
      · rw [if_neg hn] at h
        cases entry with
        | vlist xs =>
          have h : (Except.ok (true, replaceResolved d (parse_key path sep)
              (Value.vlist (xs ++ [v]))) : Except PyErr (Bool × Value)) =
              Except.ok (true, d') := h
          cases h
          exact replaceResolved_container _ _ _ hc rfl
        | vnull => cases h
        | vbool b => cases h
        | vint n => cases h
        | vstr s2 => cases h
        | vdict m => cases h
  · intro d path v i d' hc h
    unfold insert at h
    cases hg : get d path sep with
    | error e => rw [hg, error_bind] at h; cases h
    | ok entry =>
      rw [hg, ok_bind] at h
      by_cases hn : isVNull entry = true
      · rw [if_pos hn] at h
        cases hput1 : put d path (.vlist []) sep with
        | error e => rw [hput1, error_bind] at h; cases h
        | ok q =>
          obtain ⟨b0, dP⟩ := q
          rw [hput1, ok_bind] at h
          have hcP : containerB dP = true :=
            put_container d path (.vlist []) sep b0 dP hc hput1
          have h : (do
              let e ← get_entry dP path sep
              (match e with
                | Value.vlist xs => Except.ok (true, replaceResolved dP
                    (parse_key path sep)
                    (Value.vlist (insertAt
                      (if i < 0 then (i + xs.length).toNat else i.toNat) v xs)))
                | _ => Except.ok (false, dP) : Except PyErr (Bool × Value))) =
              Except.ok (true, d') := h
          cases hge : get_entry dP path sep with
          | error e => rw [hge, error_bind] at h; cases h
          | ok e1 =>
            rw [hge, ok_bind] at h
            cases e1 with
            | vlist xs =>
              cases h
              exact replaceResolved_container _ _ _ hcP rfl
            | vnull => cases h
            | vbool b => cases h
            | vint n => cases h
            | vstr s2 => cases h
            | vdict m => cases h
      · rw [if_neg hn] at h
        cases entry with
        | vlist xs =>
          have h : (Except.ok (true, replaceResolved d (parse_key path sep)
              (Value.vlist (insertAt
                (if i < 0 then (i + xs.length).toNat else i.toNat) v xs))) :
              Except PyErr (Bool × Value)) = Except.ok (true, d') := h
          cases h
          exact replaceResolved_container _ _ _ hc rfl
        | vnull => cases h
        | vbool b => cases h
        | vint n => cases h
        | vstr s2 => cases h
        | vdict m => cases h
  · intro d path index value d' hc h
    unfold delete at h
    cases hg : get d path sep with
    | error e => rw [hg, error_bind] at h; cases h
    | ok entry =>
      rw [hg, ok_bind] at h
      by_cases hn : isVNull entry = true
      · rw [if_pos hn] at h
        cases h
      · rw [if_neg hn] at h
        cases hrem : remove_entry d path index value sep with
        | error e => rw [hrem, error_bind] at h; cases h
        | ok p =>
          obtain ⟨res, dR⟩ := p
          rw [hrem, ok_bind] at h
          have hcR := remove_entry_container d path index value sep res dR hc hrem
          cases res with
          | some b =>
            cases b with
            | true =>
              have h : (Except.ok (true, dR) : Except PyErr (Bool × Value)) =
                  Except.ok (true, d') := h
              cases h
              exact hcR
            | false => cases h
          | none => cases h
  · intro d path item d' hc h
    unfold pop at h
    cases hg : get d path sep with
    | error e => rw [hg, error_bind] at h; cases h
    | ok entry =>
      rw [hg, ok_bind] at h
      by_cases hn : isVNull entry = true
      · rw [if_pos hn] at h
        cases h
      · rw [if_neg hn] at h
        cases entry with
        | vdict m =>
          cases item with
          | vstr s2 =>
            have h : (if (lookupVal s2 m).isSome = true then
                Except.ok (true, replaceResolved d (parse_key path sep)
                  (Value.vdict (dictDel m s2)))
              else Except.ok (false, d) : Except PyErr (Bool × Value)) =
                Except.ok (true, d') := h
            split at h
            · cases h
              exact replaceResolved_container _ _ _ hc rfl
            · cases h
          | vnull => cases h
          | vbool b => cases h
          | vint n => cases h
          | vlist xs => cases h
          | vdict m2 => cases h
        | vlist xs =>
          cases hfind : pyIndexOf xs item with
          | some n =>
            simp only [hfind] at h
            cases h
            exact replaceResolved_container _ _ _ hc rfl
          | none =>
            simp only [hfind] at h
            cases h
        | vnull => cases h
        | vbool b => cases h
        | vint n => cases h
        | vstr s2 => cases h
  · intro d v hcv
    unfold put
    rw [show get d "" sep = .ok d from rfl, ok_bind]
    by_cases hpe : pyEq d v = true
    · rw [if_pos hpe]
    · rw [if_neg hpe,
        show add_entry d "" v sep = .ok (v, d) from by unfold add_entry; rw [if_pos rfl],
        ok_bind]
      show (if isVNull v = true then Except.ok (false, d)
          else if ("" : String) = "" then
            (if containerB v = true then Except.ok (true, v) else Except.ok (false, d))
          else Except.ok (true, d)) = Except.ok (false, d)
      by_cases hvn : isVNull v = true
      · rw [if_pos hvn]
      · rw [if_neg hvn, if_pos rfl, if_neg (by simp [hcv])]
  · intro d v hcv hpe
    unfold put
    rw [show get d "" sep = .ok d from rfl, ok_bind, if_neg (by simp [hpe]),
      show add_entry d "" v sep = .ok (v, d) from by unfold add_entry; rw [if_pos rfl],
      ok_bind]
    show (if isVNull v = true then Except.ok (false, d)
        else if ("" : String) = "" then
          (if containerB v = true then Except.ok (true, v) else Except.ok (false, d))
        else Except.ok (true, d)) = Except.ok (true, v)
    rw [if_neg (by simp [containerB_not_vnull v hcv]), if_pos rfl, if_pos hcv]

/-- C9 witness: a put that changes `{a: 1}`, a root put of a scalar, and a
root put of a mapping. -/
theorem c9_witness :
    containerB (Value.vdict [("a", Value.vint 2)]) = true ∧
    put (Value.vdict [("x", Value.vint 1)]) "" (Value.vint 5) '.' =
      .ok (false, Value.vdict [("x", Value.vint 1)]) ∧
    put (Value.vdict []) "" (Value.vdict [("b", Value.vint 2)]) '.' =
      .ok (true, Value.vdict [("b", Value.vint 2)]) :=
  ⟨(c9_root_container '.').1 (Value.vdict [("a", Value.vint 1)]) "a" (Value.vint 2)
      (Value.vdict [("a", Value.vint 2)]) rfl rfl,
   (c9_root_container '.').2.2.2.2.2.2.1 (Value.vdict [("x", Value.vint 1)])
      (Value.vint 5) rfl,
   (c9_root_container '.').2.2.2.2.2.2.2 (Value.vdict [])
      (Value.vdict [("b", Value.vint 2)]) rfl rfl⟩

end Yedit
